import Mathlib

/-!
# eslint-plugin-react-useeffect: rule `no-non-function-return`

A shallow embedding of `src/lib/rules/no-non-function-return.js`.

* An AST node is a `Node`: its `type` tag, the `name` of an identifier, its source
  `range`, and its child nodes (`callee`, `arguments`, `argument`, and every other
  child in `children`).
* A node object of the running program, with its `parent` link, is a `Loc`.  Its
  reference identity is `Loc.id`, the path of child slots from the root.
* The closure state of `create(context)` is `State`: the set `effectFunctions`
  and the reports handed to `context.report`.
* The host (ESLint) is the event list `traverse` and the dispatcher `dispatch`.
-/

namespace NoNonFunctionReturn

/-! ## Data model -/

/-- The child slot through which a node hangs below its parent. -/
inductive Slot where
  | callee
  | arguments (i : Nat)
  | argument
  | child (i : Nat)
  deriving DecidableEq, Repr

/-- Reference identity of a node object: the path of slots from the node up to the root. -/
abbrev NodeId := List Slot

/-- An ESTree node, with the fields the rule reads. -/
inductive Node where
  | mk (type : String) (name : Option String) (range : Nat × Nat)
       (callee : Option Node) (arguments : List Node) (argument : Option Node)
       (children : List Node)

namespace Node

/-- Field `node.type`. -/
def type : Node → String
  | .mk t _ _ _ _ _ _ => t

/-- Field `node.name` (undefined on nodes that are not identifiers). -/
def name : Node → Option String
  | .mk _ n _ _ _ _ _ => n

/-- Field `node.range`. -/
def range : Node → Nat × Nat
  | .mk _ _ r _ _ _ _ => r

/-- Field `node.callee`. -/
def callee : Node → Option Node
  | .mk _ _ _ c _ _ _ => c

/-- Field `node.arguments`. -/
def arguments : Node → List Node
  | .mk _ _ _ _ a _ _ => a

/-- Field `node.argument`. -/
def argument : Node → Option Node
  | .mk _ _ _ _ _ a _ => a

/-- Every other child node (bodies, tests, parameters, ...), in source order. -/
def children : Node → List Node
  | .mk _ _ _ _ _ _ c => c

/-- The child of a node in a given slot. -/
def childAt (n : Node) : Slot → Option Node
  | .callee => n.callee
  | .arguments i => n.arguments.get? i
  | .argument => n.argument
  | .child i => n.children.get? i

end Node

/-- A node object together with its `parent` link. -/
inductive Loc where
  | root (node : Node)
  | child (slot : Slot) (node : Node) (parent : Loc)

namespace Loc

/-- The node's own fields. -/
def node : Loc → Node
  | .root n => n
  | .child _ n _ => n

/-- Field `node.parent` (null at the root). -/
def parent : Loc → Option Loc
  | .root _ => none
  | .child _ _ p => some p

/-- Reference identity of the node object. -/
def id : Loc → NodeId
  | .root _ => []
  | .child s _ p => s :: p.id

/-- Field `node.type`. -/
def type (l : Loc) : String := l.node.type

end Loc

/-- The result of `fixer.replaceText(node, text)`: the replaced range and the new text. -/
structure Fix where
  range : Nat × Nat
  text : String
  deriving DecidableEq, Repr

/-- One entry of a report's `suggest` array; `fix` is the value its `fix(fixer)` returns. -/
structure Suggestion where
  messageId : String
  fix : Fix
  deriving DecidableEq, Repr

/-- The argument of one `context.report` call; `node` is the identity of the reported node. -/
structure Report where
  node : NodeId
  messageId : String
  suggest : List Suggestion
  deriving DecidableEq, Repr

/-- The state of one `create(context)` instance. -/
structure State where
  effectFunctions : List NodeId
  reports : List Report
  deriving DecidableEq, Repr

/-- The state right after `create(context)`: `new Set()` and nothing reported. -/
def State.init : State := ⟨[], []⟩

/-! ## JavaScript built-ins and the host interface -/

/-- `Set.prototype.add`. -/
def setAdd (s : List NodeId) (x : NodeId) : List NodeId :=
  if x ∈ s then s else s ++ [x]

/-- `Set.prototype.delete`. -/
def setDelete (s : List NodeId) (x : NodeId) : List NodeId :=
  s.filter (fun y => y ≠ x)

/-- `Set.prototype.has`. -/
def setHas (s : List NodeId) (x : NodeId) : Bool :=
  decide (x ∈ s)

/-- A JavaScript string: the sequence of its UTF-16 code units. Ranges of nodes and the
string methods count in these units. -/
abbrev JsString := List Nat

/-- The UTF-16 code units of a sequence of code points: one unit below `0x10000`, a
surrogate pair from there on. -/
def utf16 : List Char → JsString
  | [] => []
  | c :: cs =>
    (if c.toNat < 0x10000 then [c.toNat]
      else [0xD800 + (c.toNat - 0x10000) / 0x400, 0xDC00 + (c.toNat - 0x10000) % 0x400]) ++
      utf16 cs

/-- The JavaScript string with the given text. -/
def jsString (s : String) : JsString :=
  utf16 s.toList

/-- The code units `String.prototype.trim` strips: WhiteSpace and LineTerminator. -/
def isJsWhiteSpace (v : Nat) : Bool :=
  v == 0x09 || v == 0x0A || v == 0x0B || v == 0x0C || v == 0x0D || v == 0x20 ||
  v == 0xA0 || v == 0x1680 || (0x2000 ≤ v && v ≤ 0x200A) || v == 0x2028 ||
  v == 0x2029 || v == 0x202F || v == 0x205F || v == 0x3000 || v == 0xFEFF

/-- `String.prototype.trim`. -/
def jsTrim (s : JsString) : JsString :=
  ((s.dropWhile isJsWhiteSpace).reverse.dropWhile isJsWhiteSpace).reverse

/-- `String.prototype.endsWith` with a search string of one code unit. -/
def jsEndsWith (s : JsString) (c : Char) : Bool :=
  s.getLast? == some c.toNat

/-- `String.prototype.slice(a, b)` for indices inside the string. -/
def jsSlice (s : JsString) (a b : Nat) : JsString :=
  (s.drop a).take (b - a)

/-- The host's `SourceCode` object: the text of the linted file. -/
structure SourceCode where
  text : JsString

/-- `sourceCode.getText(node)`: the text spanned by the node's range. -/
def SourceCode.getText (sourceCode : SourceCode) (node : Node) : JsString :=
  jsSlice sourceCode.text node.range.1 node.range.2

/-- `fixer.replaceText(node, text)`. -/
def replaceText (node : Node) (text : String) : Fix :=
  ⟨node.range, text⟩

/-- `context.report(descriptor)`. -/
def State.report (st : State) (r : Report) : State :=
  { st with reports := st.reports ++ [r] }

/-- The host applying a fix to a text: the range is cut out and the new text put in. -/
def applyFix (text : JsString) (fix : Fix) : JsString :=
  text.take fix.range.1 ++ jsString fix.text ++ text.drop fix.range.2

/-! ## The rule -/

/-- Function `isEffectCall(node)`. -/
def isEffectCall (node : Node) : Bool :=
  match node.callee with
  | none => false
  | some callee =>
    callee.type == "Identifier" &&
      (callee.name == some "useEffect" || callee.name == some "useLayoutEffect")

/-- Function `getAncestors(node)`: follow `parent` until it is null. -/
def getAncestors : Loc → List Loc
  | .root _ => []
  | .child _ _ p => p :: getAncestors p

/-- Function `isInTopLevelEffectFunction(node)`: the result of `ancestors.find(...)`. -/
def isInTopLevelEffectFunction (effectFunctions : List NodeId) (node : Loc) : Option Loc :=
  (getAncestors node).find? (fun ancestor =>
    (ancestor.type == "FunctionExpression" || ancestor.type == "ArrowFunctionExpression") &&
      setHas effectFunctions ancestor.id)

/-- Handler `CallExpression(node)`. -/
def CallExpression (node : Loc) (st : State) : State :=
  if isEffectCall node.node then
    match node.node.arguments.head? with
    | none => st
    | some firstArg =>
      if firstArg.type == "ArrowFunctionExpression" || firstArg.type == "FunctionExpression" then
        { st with effectFunctions :=
            setAdd st.effectFunctions (Loc.child (Slot.arguments 0) firstArg node).id }
      else st
  else st

/-- The `fix(fixer)` closure of the report for a `return` without a value. -/
def fixNoValue (sourceCode : SourceCode) (node : Loc) : Fix :=
  let text := sourceCode.getText node.node
  let semicolon := if jsEndsWith (jsTrim text) ';' then ";" else ""
  replaceText node.node ("return () => {}" ++ semicolon)

/-- The `fix(fixer)` closure of the report for a `return` of a non-function. -/
def fixNonFunction (argument : Node) : Fix :=
  replaceText argument "() => {};"

/-- Handler `ReturnStatement(node)`. -/
def ReturnStatement (sourceCode : SourceCode) (node : Loc) (st : State) : State :=
  match isInTopLevelEffectFunction st.effectFunctions node with
  | none => st
  | some _ =>
    match node.node.argument with
    | none =>
      st.report
        { node := node.id
          messageId := "returnNotFunction"
          suggest := [⟨"replaceWithFunction", fixNoValue sourceCode node⟩] }
    | some argument =>
      if argument.type != "ArrowFunctionExpression" && argument.type != "FunctionExpression" then
        st.report
          { node := (Loc.child Slot.argument argument node).id
            messageId := "returnNotFunction"
            suggest := [⟨"replaceWithFunction", fixNonFunction argument⟩] }
      else st

/-- Handlers `FunctionExpression:exit`, `FunctionDeclaration:exit` and
`ArrowFunctionExpression:exit`, which share one body. -/
def functionExit (node : Loc) (st : State) : State :=
  { st with effectFunctions := setDelete st.effectFunctions node.id }

/-! ## The host traversal -/

/-- A visitor event: entering or leaving a node. -/
inductive Event where
  | enter (l : Loc)
  | exit (l : Loc)

/-- The node an event is about. -/
def Event.loc : Event → Loc
  | .enter l => l
  | .exit l => l

mutual
/-- The events of the subtree of `n`, whose node object is `here`, in document order:
enter the node, walk its children, leave the node. -/
def walk : Node → Loc → List Event
  | .mk _ _ _ callee arguments argument children, here =>
    [Event.enter here]
      ++ walkOpt callee Slot.callee here
      ++ walkList arguments 0 Slot.arguments here
      ++ walkOpt argument Slot.argument here
      ++ walkList children 0 Slot.child here
      ++ [Event.exit here]
/-- The events of an optional child. -/
def walkOpt : Option Node → Slot → Loc → List Event
  | none, _, _ => []
  | some n, s, parent => walk n (Loc.child s n parent)
/-- The events of a list of children, the first of which has index `i`. -/
def walkList : List Node → Nat → (Nat → Slot) → Loc → List Event
  | [], _, _, _ => []
  | n :: ns, i, f, parent =>
    walk n (Loc.child (f i) n parent) ++ walkList ns (i + 1) f parent
end

/-- The events of one pass over the tree below `root`. -/
def traverse (root : Node) : List Event :=
  walk root (Loc.root root)

/-- The host calling the handler registered for an event, if there is one. -/
def dispatch (sourceCode : SourceCode) (st : State) : Event → State
  | .enter l =>
    if l.type = "CallExpression" then CallExpression l st
    else if l.type = "ReturnStatement" then ReturnStatement sourceCode l st
    else st
  | .exit l =>
    if l.type = "FunctionExpression" ∨ l.type = "FunctionDeclaration" ∨
        l.type = "ArrowFunctionExpression" then functionExit l st
    else st

/-- The state after a sequence of events. -/
def run (sourceCode : SourceCode) (events : List Event) (st : State) : State :=
  events.foldl (dispatch sourceCode) st

/-- The reports of one pass over a file. -/
def lint (sourceCode : SourceCode) (root : Node) : List Report :=
  (run sourceCode (traverse root) State.init).reports

/-! ## Notions the specification uses -/

/-- The three node types of a function. -/
def isFunctionType (t : String) : Bool :=
  t == "FunctionExpression" || t == "ArrowFunctionExpression" || t == "FunctionDeclaration"

/-- The governing function of a node: its first function ancestor, walking outward. -/
def nearestFunction (node : Loc) : Option Loc :=
  (getAncestors node).find? (fun ancestor => isFunctionType ancestor.type)

/-- The callee is the identifier `useEffect` or `useLayoutEffect`. -/
def HasEffectCallee (call : Node) : Prop :=
  ∃ callee, call.callee = some callee ∧ callee.type = "Identifier" ∧
    (callee.name = some "useEffect" ∨ callee.name = some "useLayoutEffect")

/-- The node type of a function literal. -/
def IsFunctionLiteral (t : String) : Prop :=
  t = "ArrowFunctionExpression" ∨ t = "FunctionExpression"

/-! ## Auxiliary notions for the traversal proofs -/

/-- A property of the state in which each `enter` event of a sequence is dispatched. -/
def AtEnter (Q : State → Loc → Prop) (sourceCode : SourceCode) : List Event → State → Prop
  | [], _ => True
  | .enter x :: es, st => Q st x ∧ AtEnter Q sourceCode es (dispatch sourceCode st (.enter x))
  | .exit x :: es, st => AtEnter Q sourceCode es (dispatch sourceCode st (.exit x))

/-- The `CallExpression` handler on this node adds the first argument to the set. -/
def Registers (call : Loc) : Prop :=
  call.type = "CallExpression" ∧ HasEffectCallee call.node ∧
    ∃ firstArg, call.node.arguments.head? = some firstArg ∧ IsFunctionLiteral firstArg.type

/-- The node object is the one its parent's `CallExpression` handler adds to the set. -/
def Registered : Loc → Prop
  | .root _ => False
  | .child s _ call => s = Slot.arguments 0 ∧ Registers call

/-- Every registered node among a node and its ancestors is in the set. -/
def TracksAncestors (st : State) (x : Loc) : Prop :=
  ∀ a, (a = x ∨ a ∈ getAncestors x) → Registered a → a.id ∈ st.effectFunctions

/-- Each `parent` link of the chain leads to the node that has this node in that slot. -/
def Loc.Linked : Loc → Prop
  | .root _ => True
  | .child s n p => p.node.childAt s = some n ∧ p.Linked

/-! ## Concrete syntax trees -/

/-- An `Identifier` node. -/
def ident (name : String) (range : Nat × Nat) : Node :=
  .mk "Identifier" (some name) range none [] none []

/-- A numeric `Literal` node. -/
def literal (range : Nat × Nat) : Node :=
  .mk "Literal" none range none [] none []

/-- A `CallExpression` node. -/
def callExpr (range : Nat × Nat) (callee : Node) (arguments : List Node) : Node :=
  .mk "CallExpression" none range (some callee) arguments none []

/-- An `ArrowFunctionExpression` node without parameters. -/
def arrowFn (range : Nat × Nat) (body : Node) : Node :=
  .mk "ArrowFunctionExpression" none range none [] none [body]

/-- A `FunctionExpression` node without parameters. -/
def functionExpr (range : Nat × Nat) (body : Node) : Node :=
  .mk "FunctionExpression" none range none [] none [body]

/-- A `BlockStatement` node. -/
def blockStmt (range : Nat × Nat) (body : List Node) : Node :=
  .mk "BlockStatement" none range none [] none body

/-- A `ReturnStatement` node. -/
def returnStmt (range : Nat × Nat) (argument : Option Node) : Node :=
  .mk "ReturnStatement" none range none [] argument []

/-- An `ExpressionStatement` node. -/
def exprStmt (range : Nat × Nat) (expression : Node) : Node :=
  .mk "ExpressionStatement" none range none [] none [expression]

/-- A `Program` node. -/
def program (range : Nat × Nat) (body : List Node) : Node :=
  .mk "Program" none range none [] none body

/-- The file `useEffect(() => { return; });`. -/
def srcReturnNothing : SourceCode := ⟨jsString "useEffect(() => { return; });"⟩

/-- The statement `return;` of `srcReturnNothing`. -/
def rnReturn : Node := returnStmt (18, 25) none

/-- The body of the effect callback of `srcReturnNothing`. -/
def rnBlock : Node := blockStmt (16, 27) [rnReturn]

/-- The effect callback of `srcReturnNothing`. -/
def rnArrow : Node := arrowFn (10, 27) rnBlock

/-- The callee `useEffect` of `srcReturnNothing`. -/
def rnCallee : Node := ident "useEffect" (0, 9)

/-- The effect call of `srcReturnNothing`. -/
def rnCall : Node := callExpr (0, 28) rnCallee [rnArrow]

/-- The expression statement of `srcReturnNothing`. -/
def rnStmt : Node := exprStmt (0, 29) rnCall

/-- The tree of `srcReturnNothing`. -/
def astReturnNothing : Node := program (0, 29) [rnStmt]

/-- The node objects of `astReturnNothing`, from the root down to the `return`. -/
def rnProgramLoc : Loc := Loc.root astReturnNothing
/-- The expression statement below the program. -/
def rnStmtLoc : Loc := Loc.child (Slot.child 0) rnStmt rnProgramLoc
/-- The effect call. -/
def rnCallLoc : Loc := Loc.child (Slot.child 0) rnCall rnStmtLoc
/-- The callee of the effect call. -/
def rnCalleeLoc : Loc := Loc.child Slot.callee rnCallee rnCallLoc
/-- The effect callback. -/
def rnArrowLoc : Loc := Loc.child (Slot.arguments 0) rnArrow rnCallLoc
/-- The body of the effect callback. -/
def rnBlockLoc : Loc := Loc.child (Slot.child 0) rnBlock rnArrowLoc
/-- The statement `return;`. -/
def rnReturnLoc : Loc := Loc.child (Slot.child 0) rnReturn rnBlockLoc

/-- The file `useEffect(() => { if (x) { return doThing(); } });`. -/
def srcIfReturn : SourceCode :=
  ⟨jsString "useEffect(() => { if (x) { return doThing(); } });"⟩

/-- The call `doThing()` of `srcIfReturn`. -/
def irDoThing : Node := callExpr (34, 43) (ident "doThing" (34, 41)) []

/-- The statement `return doThing();` of `srcIfReturn`. -/
def irReturn : Node := returnStmt (27, 44) (some irDoThing)

/-- The block of the `if` of `srcIfReturn`. -/
def irInnerBlock : Node := blockStmt (25, 46) [irReturn]

/-- The test `x` of the `if` of `srcIfReturn`. -/
def irTest : Node := ident "x" (22, 23)

/-- The `if` statement of `srcIfReturn`. -/
def irIf : Node := .mk "IfStatement" none (18, 46) none [] none [irTest, irInnerBlock]

/-- The body of the effect callback of `srcIfReturn`. -/
def irBlock : Node := blockStmt (16, 48) [irIf]

/-- The effect callback of `srcIfReturn`. -/
def irArrow : Node := arrowFn (10, 48) irBlock

/-- The callee `useEffect` of `srcIfReturn`. -/
def irCallee : Node := ident "useEffect" (0, 9)

/-- The effect call of `srcIfReturn`. -/
def irCall : Node := callExpr (0, 49) irCallee [irArrow]

/-- The expression statement of `srcIfReturn`. -/
def irStmt : Node := exprStmt (0, 50) irCall

/-- The tree of `srcIfReturn`. -/
def astIfReturn : Node := program (0, 50) [irStmt]

/-- The node objects of `astIfReturn`, from the root down to the `return`. -/
def irProgramLoc : Loc := Loc.root astIfReturn
/-- The expression statement below the program. -/
def irStmtLoc : Loc := Loc.child (Slot.child 0) irStmt irProgramLoc
/-- The effect call. -/
def irCallLoc : Loc := Loc.child (Slot.child 0) irCall irStmtLoc
/-- The callee of the effect call. -/
def irCalleeLoc : Loc := Loc.child Slot.callee irCallee irCallLoc
/-- The effect callback. -/
def irArrowLoc : Loc := Loc.child (Slot.arguments 0) irArrow irCallLoc
/-- The body of the effect callback. -/
def irBlockLoc : Loc := Loc.child (Slot.child 0) irBlock irArrowLoc
/-- The `if` statement. -/
def irIfLoc : Loc := Loc.child (Slot.child 0) irIf irBlockLoc
/-- The test of the `if`. -/
def irTestLoc : Loc := Loc.child (Slot.child 0) irTest irIfLoc
/-- The block of the `if`. -/
def irInnerBlockLoc : Loc := Loc.child (Slot.child 1) irInnerBlock irIfLoc
/-- The statement `return doThing();`. -/
def irReturnLoc : Loc := Loc.child (Slot.child 0) irReturn irInnerBlockLoc

/-- The file `useEffect(() => { return () => {}; });`. -/
def srcCleanup : SourceCode := ⟨jsString "useEffect(() => { return () => {}; });"⟩

/-- The cleanup function `() => {}` of `srcCleanup`. -/
def clCleanup : Node := arrowFn (25, 33) (blockStmt (31, 33) [])

/-- The statement `return () => {};` of `srcCleanup`. -/
def clReturn : Node := returnStmt (18, 34) (some clCleanup)

/-- The body of the effect callback of `srcCleanup`. -/
def clBlock : Node := blockStmt (16, 36) [clReturn]

/-- The effect callback of `srcCleanup`. -/
def clArrow : Node := arrowFn (10, 36) clBlock

/-- The effect call of `srcCleanup`. -/
def clCall : Node := callExpr (0, 37) (ident "useEffect" (0, 9)) [clArrow]

/-- The tree of `srcCleanup`. -/
def astCleanup : Node := program (0, 38) [exprStmt (0, 38) clCall]

/-- The node object of the effect callback of `astCleanup`. -/
def clArrowLoc : Loc :=
  Loc.child (Slot.arguments 0) clArrow
    (Loc.child (Slot.child 0) clCall
      (Loc.child (Slot.child 0) (exprStmt (0, 38) clCall) (Loc.root astCleanup)))
/-- The node object of the statement `return () => {};` of `astCleanup`. -/
def clReturnLoc : Loc :=
  Loc.child (Slot.child 0) clReturn (Loc.child (Slot.child 0) clBlock clArrowLoc)

/-- The text of a statement after the host applied a fix that lies inside it. -/
def rewrittenStatement (sourceCode : SourceCode) (statement : Node) (fix : Fix) : JsString :=
  jsSlice (applyFix sourceCode.text fix) statement.range.1
    (statement.range.2 + (jsString fix.text).length - (fix.range.2 - fix.range.1))

/-- The file `useEffect(() => { return 5; });`. -/
def srcReturnFive : SourceCode := ⟨jsString "useEffect(() => { return 5; });"⟩

/-- The statement `return 5;` of `srcReturnFive`. -/
def rfReturn : Node := returnStmt (18, 27) (some (literal (25, 26)))

/-- The tree of `srcReturnFive`. -/
def astReturnFive : Node :=
  program (0, 31) [exprStmt (0, 31)
    (callExpr (0, 30) (ident "useEffect" (0, 9))
      [arrowFn (10, 29) (blockStmt (16, 29) [rfReturn])])]

/-- The file `useEffect(() => { return 5 });`, a `return` without a semicolon. -/
def srcReturnBare : SourceCode := ⟨jsString "useEffect(() => { return 5 });"⟩

/-- The statement `return 5` of `srcReturnBare`. -/
def rbReturn : Node := returnStmt (18, 26) (some (literal (25, 26)))

/-- The tree of `srcReturnBare`. -/
def astReturnBare : Node :=
  program (0, 30) [exprStmt (0, 30)
    (callExpr (0, 29) (ident "useEffect" (0, 9))
      [arrowFn (10, 28) (blockStmt (16, 28) [rbReturn])])]

/-- The file `useEffect(() => { return (5); });`; the range of the argument is that of
`5`, the parentheses belong to the statement only. -/
def srcReturnParen : SourceCode := ⟨jsString "useEffect(() => { return (5); });"⟩

/-- The statement `return (5);` of `srcReturnParen`. -/
def rpReturn : Node := returnStmt (18, 29) (some (literal (26, 27)))

/-- The tree of `srcReturnParen`. -/
def astReturnParen : Node :=
  program (0, 33) [exprStmt (0, 33)
    (callExpr (0, 32) (ident "useEffect" (0, 9))
      [arrowFn (10, 31) (blockStmt (16, 31) [rpReturn])])]

/-- The identity of the `return` statement in the trees with one effect call whose
callback body holds one statement, and the identity of its argument. -/
def soleReturnId : NodeId :=
  [Slot.child 0, Slot.child 0, Slot.arguments 0, Slot.child 0, Slot.child 0]

/-- The file `useEffect(() => { foo(() => { return 5; }); });`. -/
def srcNested : SourceCode := ⟨jsString "useEffect(() => { foo(() => { return 5; }); });"⟩

/-- The statement `return 5;` of `srcNested`. -/
def neReturn : Node := returnStmt (30, 39) (some (literal (37, 38)))

/-- The callback passed to `foo` in `srcNested`. -/
def neInnerArrow : Node := arrowFn (22, 41) (blockStmt (28, 41) [neReturn])

/-- The call `foo(...)` of `srcNested`. -/
def neInnerCall : Node := callExpr (18, 42) (ident "foo" (18, 21)) [neInnerArrow]

/-- The body of the effect callback of `srcNested`. -/
def neBlock : Node := blockStmt (16, 45) [exprStmt (18, 43) neInnerCall]

/-- The effect callback of `srcNested`. -/
def neArrow : Node := arrowFn (10, 45) neBlock

/-- The effect call of `srcNested`. -/
def neCall : Node := callExpr (0, 46) (ident "useEffect" (0, 9)) [neArrow]

/-- The tree of `srcNested`. -/
def astNested : Node := program (0, 47) [exprStmt (0, 47) neCall]

/-- The node object of the effect call of `astNested`. -/
def neCallLoc : Loc :=
  Loc.child (Slot.child 0) neCall
    (Loc.child (Slot.child 0) (exprStmt (0, 47) neCall) (Loc.root astNested))
/-- The node object of the effect callback of `astNested`. -/
def neArrowLoc : Loc := Loc.child (Slot.arguments 0) neArrow neCallLoc
/-- The node object of the call `foo(...)` of `astNested`. -/
def neInnerCallLoc : Loc :=
  Loc.child (Slot.child 0) neInnerCall
    (Loc.child (Slot.child 0) (exprStmt (18, 43) neInnerCall)
      (Loc.child (Slot.child 0) neBlock neArrowLoc))
/-- The node object of the callback passed to `foo` in `astNested`. -/
def neInnerArrowLoc : Loc := Loc.child (Slot.arguments 0) neInnerArrow neInnerCallLoc
/-- The node object of the statement `return 5;` of `astNested`. -/
def neReturnLoc : Loc :=
  Loc.child (Slot.child 0) neReturn
    (Loc.child (Slot.child 0) (blockStmt (28, 41) [neReturn]) neInnerArrowLoc)

/-! ## Notions for the later statements -/

mutual
/-- All nodes of the subtree below a node, the node itself first. -/
def Node.subtree : Node → List Node
  | .mk type name range callee arguments argument children =>
    Node.mk type name range callee arguments argument children ::
      (subtreeOpt callee ++ subtreeList arguments ++ subtreeOpt argument ++
        subtreeList children)
/-- All nodes below an optional child. -/
def subtreeOpt : Option Node → List Node
  | none => []
  | some n => n.subtree
/-- All nodes below a list of children. -/
def subtreeList : List Node → List Node
  | [] => []
  | n :: ns => n.subtree ++ subtreeList ns
end

/-- A node is on the path from `x` up to the root: it is `x` or one of its ancestors. -/
def OnPath (x y : Loc) : Prop :=
  y = x ∨ y ∈ getAncestors x

/-- The loop of `getAncestors(node)` as written, `current` being the loop variable, run
for at most `fuel` iterations; `none` when the fuel does not suffice. -/
def getAncestorsLoop : Nat → Option Loc → List Loc → Option (List Loc)
  | _, none, ancestors => some ancestors
  | 0, some _, _ => none
  | fuel + 1, some current, ancestors =>
    getAncestorsLoop fuel current.parent (ancestors ++ [current])

/-- The predicate that `isInTopLevelEffectFunction` hands to `find`. -/
def isTrackedFunction (effectFunctions : List NodeId) (ancestor : Loc) : Bool :=
  (ancestor.type == "FunctionExpression" || ancestor.type == "ArrowFunctionExpression") &&
    setHas effectFunctions ancestor.id

/-- A `BinaryExpression` node. -/
def binaryExpr (range : Nat × Nat) (left right : Node) : Node :=
  .mk "BinaryExpression" none range none [] none [left, right]

/-- The file `useEffect(() => { return a + b; });`. -/
def srcBinary : SourceCode := ⟨jsString "useEffect(() => { return a + b; });"⟩

/-- The expression `a + b` of `srcBinary`. -/
def biSum : Node := binaryExpr (25, 30) (ident "a" (25, 26)) (ident "b" (29, 30))

/-- The statement `return a + b;` of `srcBinary`. -/
def biReturn : Node := returnStmt (18, 31) (some biSum)

/-- The body of the effect callback of `srcBinary`. -/
def biBlock : Node := blockStmt (16, 33) [biReturn]

/-- The effect callback of `srcBinary`. -/
def biArrow : Node := arrowFn (10, 33) biBlock

/-- The effect call of `srcBinary`. -/
def biCall : Node := callExpr (0, 34) (ident "useEffect" (0, 9)) [biArrow]

/-- The tree of `srcBinary`. -/
def astBinary : Node := program (0, 35) [exprStmt (0, 35) biCall]

/-- The node object of the effect callback of `astBinary`. -/
def biArrowLoc : Loc :=
  Loc.child (Slot.arguments 0) biArrow
    (Loc.child (Slot.child 0) biCall
      (Loc.child (Slot.child 0) (exprStmt (0, 35) biCall) (Loc.root astBinary)))
/-- The node object of the statement `return a + b;` of `astBinary`. -/
def biReturnLoc : Loc :=
  Loc.child (Slot.child 0) biReturn (Loc.child (Slot.child 0) biBlock biArrowLoc)

/-- The file `useEffect(() => 5);`, an effect callback with an expression body. -/
def srcImplicit : SourceCode := ⟨jsString "useEffect(() => 5);"⟩

/-- The tree of `srcImplicit`. -/
def astImplicit : Node :=
  program (0, 19) [exprStmt (0, 19)
    (callExpr (0, 18) (ident "useEffect" (0, 9)) [arrowFn (10, 17) (literal (16, 17))])]

/-- The file `useEffect();`, an effect call without arguments. -/
def srcNoArguments : SourceCode := ⟨jsString "useEffect();"⟩

/-- The effect call of `srcNoArguments`. -/
def naCall : Node := callExpr (0, 11) (ident "useEffect" (0, 9)) []

/-- The tree of `srcNoArguments`. -/
def astNoArguments : Node := program (0, 12) [exprStmt (0, 12) naCall]

/-- A property of the state in which each event of a sequence is dispatched. -/
def AtEvent (Q : State → Event → Prop) (sourceCode : SourceCode) : List Event → State → Prop
  | [], _ => True
  | e :: es, st => Q st e ∧ AtEvent Q sourceCode es (dispatch sourceCode st e)

/-- A node object lies on the path of `x`, or it hangs below a call whose callee lies on
the path of `x`. -/
def Near (x a : Loc) : Prop :=
  OnPath x a ∨ ∃ k p, a.parent = some p ∧ OnPath x (Loc.child Slot.callee k p)

/-- Every member of the set was registered by a call and is near the visited node. -/
def TracksOnly (st : State) (x : Loc) : Prop :=
  ∀ id ∈ st.effectFunctions, ∃ a, Registered a ∧ a.id = id ∧ Near x a

/-- What the tracked set holds when an event is dispatched. -/
def TrackedAt (st : State) (e : Event) : Prop :=
  TracksAncestors st e.loc ∧ TracksOnly st e.loc

/-- The host invokes a handler of the rule for this event. -/
def HandlerEvent : Event → Prop
  | .enter l => l.type = "CallExpression" ∨ l.type = "ReturnStatement"
  | .exit l =>
    l.type = "FunctionExpression" ∨ l.type = "FunctionDeclaration" ∨
      l.type = "ArrowFunctionExpression"

/-- The node has no child nodes. -/
def Node.hasNoChildren (n : Node) : Bool :=
  n.callee.isNone && n.arguments.isEmpty && n.argument.isNone && n.children.isEmpty

/-- The node object is a function literal that is `arguments[0]` of a call expression whose
callee is the identifier `useEffect` or `useLayoutEffect`. -/
def isEffectCallback : Loc → Bool
  | .child (.arguments 0) f call =>
    (f.type == "ArrowFunctionExpression" || f.type == "FunctionExpression") &&
      call.type == "CallExpression" && isEffectCall call.node
  | _ => false

/-- The reports for one node, found without any state: a `ReturnStatement` with some
effect callback among its ancestors is reported itself when it has no argument, and its
argument is reported when that is neither an arrow function nor a function expression. -/
def statelessReturn (sourceCode : SourceCode) (x : Loc) : List Report :=
  if x.type = "ReturnStatement" ∧ (getAncestors x).any isEffectCallback = true then
    match x.node.argument with
    | none =>
      [⟨x.id, "returnNotFunction", [⟨"replaceWithFunction", fixNoValue sourceCode x⟩]⟩]
    | some argument =>
      if argument.type ≠ "ArrowFunctionExpression" ∧ argument.type ≠ "FunctionExpression" then
        [⟨(Loc.child Slot.argument argument x).id, "returnNotFunction",
          [⟨"replaceWithFunction", fixNonFunction argument⟩]⟩]
      else []
  else []

/-- The stateless reports of an event: those of the node when it is entered. -/
def statelessEvent (sourceCode : SourceCode) : Event → List Report
  | .enter x => statelessReturn sourceCode x
  | .exit _ => []

/-- The reports of a tree found without any state, the nodes taken in document order. -/
def statelessReports (sourceCode : SourceCode) (root : Node) : List Report :=
  (traverse root).flatMap (statelessEvent sourceCode)

/-! ## Variants of a tree: the other effect name, the other function-literal type -/

/-- The other recognized name: `useEffect` for `useLayoutEffect` and the reverse. -/
def swapEffectName : Option String → Option String
  | none => none
  | some name =>
    if name = "useEffect" then some "useLayoutEffect"
    else if name = "useLayoutEffect" then some "useEffect"
    else some name

/-- The other function-literal type; every other type stays. -/
def flipLiteralType (t : String) : String :=
  if t = "ArrowFunctionExpression" then "FunctionExpression"
  else if t = "FunctionExpression" then "ArrowFunctionExpression"
  else t

/-- The node with its name swapped when `swap` holds, all else unchanged. -/
def Node.swapName (swap : Bool) : Node → Node
  | .mk type name range callee arguments argument children =>
    .mk type (if swap then swapEffectName name else name) range callee arguments argument
      children

/-- The node with its type flipped when `flip` holds, all else unchanged. -/
def Node.flipType (flip : Bool) : Node → Node
  | .mk type name range callee arguments argument children =>
    .mk (if flip then flipLiteralType type else type) name range callee arguments argument
      children

mutual
/-- The tree in which, at each effect call chosen by `swapName` (by the identity of the
call), the callee name is replaced by the other recognized name, and at each effect call
chosen by `flipType` the type of a function-literal first argument is replaced by the other
function-literal type; the rest of the tree is unchanged. -/
def vary (swapName flipType : NodeId → Bool) : NodeId → Node → Node
  | id, .mk type name range callee arguments argument children =>
    .mk type name range
      (varyOpt swapName flipType (Slot.callee :: id)
        (type == "CallExpression" &&
          isEffectCall (.mk type name range callee arguments argument children) &&
          swapName id) callee)
      (varyList swapName flipType id 0 Slot.arguments
        (type == "CallExpression" &&
          isEffectCall (.mk type name range callee arguments argument children) &&
          flipType id) arguments)
      (varyOpt swapName flipType (Slot.argument :: id) false argument)
      (varyList swapName flipType id 0 Slot.child false children)
/-- The variant of an optional child, its name swapped when `swap` holds. -/
def varyOpt (swapName flipType : NodeId → Bool) : NodeId → Bool → Option Node → Option Node
  | _, _, none => none
  | id, swap, some n => some ((vary swapName flipType id n).swapName swap)
/-- The variants of a list of children, the type of the first flipped when `flip` holds. -/
def varyList (swapName flipType : NodeId → Bool) :
    NodeId → Nat → (Nat → Slot) → Bool → List Node → List Node
  | _, _, _, _, [] => []
  | parent, i, f, flip, n :: ns =>
    (vary swapName flipType (f i :: parent) n).flipType flip ::
      varyList swapName flipType parent (i + 1) f false ns
end

/-- Two node types agree up to the choice between the two function-literal types. -/
def TypeSim (t t2 : String) : Prop :=
  t = t2 ∨ (IsFunctionLiteral t ∧ IsFunctionLiteral t2)

/-- Two nodes agree in what the rule reads of a visited node or of an ancestor. -/
def NodeSim (n n2 : Node) : Prop :=
  TypeSim n.type n2.type ∧ n.range = n2.range ∧ isEffectCall n = isEffectCall n2 ∧
    n.argument.map (fun a => (a.type, a.range)) = n2.argument.map (fun a => (a.type, a.range))

/-- Two node objects sit in the same place and agree along their whole parent chains. -/
def LocSim : Loc → Loc → Prop
  | .root n, .root n2 => NodeSim n n2
  | .child s n p, .child s2 n2 p2 => s = s2 ∧ NodeSim n n2 ∧ LocSim p p2
  | _, _ => False

/-- Two events are of the same kind, about node objects that agree. -/
def EventSim : Event → Event → Prop
  | .enter l, .enter l2 => LocSim l l2
  | .exit l, .exit l2 => LocSim l l2
  | _, _ => False

/-- The tree of `useLayoutEffect(function() { return; });` with the ranges of
`astReturnNothing`. -/
def astLayoutFunction : Node :=
  program (0, 29) [exprStmt (0, 29)
    (callExpr (0, 28) (ident "useLayoutEffect" (0, 9)) [functionExpr (10, 27) rnBlock])]

/-- The file `useEffect(() => { return });`, a `return` without value or semicolon. -/
def srcReturnSolo : SourceCode := ⟨jsString "useEffect(() => { return });"⟩

/-- The tree of `srcReturnSolo`. -/
def astReturnSolo : Node :=
  program (0, 28) [exprStmt (0, 28)
    (callExpr (0, 27) (ident "useEffect" (0, 9))
      [arrowFn (10, 26) (blockStmt (16, 26) [returnStmt (18, 24) none])])]

/-- The file `useEffect(() => { return; });` after a comment that holds the character
U+1F600, which takes two code units: the `return;` lies at the units 27 to 34. -/
def srcAstral : SourceCode :=
  ⟨utf16 ("/* ".toList ++ [Char.ofNat 0x1F600] ++
    " */ useEffect(() => { return; });".toList)⟩

/-- The statement `return;` of `srcAstral`. -/
def asReturn : Node := returnStmt (27, 34) none

/-- The tree of `srcAstral`. -/
def astAstral : Node :=
  program (9, 38) [exprStmt (9, 38)
    (callExpr (9, 37) (ident "useEffect" (9, 18))
      [arrowFn (19, 36) (blockStmt (25, 36) [asReturn])])]

/-! ## Handler-level facts -/

theorem isEffectCall_eq_true_iff (node : Node) :
    isEffectCall node = true ↔ HasEffectCallee node := by
  unfold isEffectCall HasEffectCallee
  cases h : node.callee with
  | none => simp
  | some callee => simp

theorem mem_setAdd (s : List NodeId) (x y : NodeId) :
    y ∈ setAdd s x ↔ y ∈ s ∨ y = x := by
  unfold setAdd
  split
  · constructor
    · intro h; exact Or.inl h
    · rintro (h | h)
      · exact h
      · subst h; assumption
  · simp

theorem mem_setDelete (s : List NodeId) (x y : NodeId) :
    y ∈ setDelete s x ↔ y ∈ s ∧ y ≠ x := by
  simp [setDelete]

/-- C5: `isEffectCall` holds exactly when the callee exists, is an `Identifier`, and is named
`useEffect` or `useLayoutEffect`; it fails for a member-access callee and for other casings. -/
theorem isEffectCall_spec :
    (∀ node : Node, isEffectCall node = true ↔
      ∃ callee, node.callee = some callee ∧ callee.type = "Identifier" ∧
        (callee.name = some "useEffect" ∨ callee.name = some "useLayoutEffect")) ∧
    (∀ node : Node, node.callee = none → isEffectCall node = false) ∧
    (∀ (node callee : Node), node.callee = some callee → callee.type = "MemberExpression" →
      isEffectCall node = false) ∧
    (∀ (node callee : Node) (name : String), node.callee = some callee →
      callee.name = some name → name ≠ "useEffect" → name ≠ "useLayoutEffect" →
      isEffectCall node = false) ∧
    "UseEffect" ≠ "useEffect" ∧ "useeffect" ≠ "useEffect" ∧
    "uselayouteffect" ≠ "useLayoutEffect" ∧ "UseLayoutEffect" ≠ "useLayoutEffect" := by
  refine ⟨isEffectCall_eq_true_iff, ?_, ?_, ?_, by decide, by decide, by decide, by decide⟩
  · intro node h
    simp [isEffectCall, h]
  · intro node callee h ht
    simp [isEffectCall, h, ht]
  · intro node callee name h hn h1 h2
    simp [isEffectCall, h, hn, h1, h2]

theorem CallExpression_reports (node : Loc) (st : State) :
    (CallExpression node st).reports = st.reports := by
  unfold CallExpression
  split
  · split
    · rfl
    · split <;> rfl
  · rfl

theorem CallExpression_registers (node : Loc) (st : State) (firstArg : Node)
    (hcall : HasEffectCallee node.node) (harg : node.node.arguments.head? = some firstArg)
    (hlit : IsFunctionLiteral firstArg.type) :
    (CallExpression node st).effectFunctions =
      setAdd st.effectFunctions (Slot.arguments 0 :: node.id) := by
  have h1 : isEffectCall node.node = true := (isEffectCall_eq_true_iff _).2 hcall
  have h2 : (firstArg.type == "ArrowFunctionExpression" ||
      firstArg.type == "FunctionExpression") = true := by
    rcases hlit with h | h <;> simp [h]
  simp only [CallExpression, h1, harg, h2, if_true, Loc.id]

theorem CallExpression_skips (node : Loc) (st : State)
    (h : ¬ (HasEffectCallee node.node ∧
      ∃ firstArg, node.node.arguments.head? = some firstArg ∧ IsFunctionLiteral firstArg.type)) :
    CallExpression node st = st := by
  unfold CallExpression
  split
  · rename_i h1
    split
    · rfl
    · rename_i firstArg harg
      split
      · rename_i h2
        exfalso
        apply h
        refine ⟨(isEffectCall_eq_true_iff _).1 h1, firstArg, harg, ?_⟩
        simpa [IsFunctionLiteral] using h2
      · rfl
  · rfl

/-- C6: the `CallExpression` handler never reports; when `isEffectCall` holds and the first
argument exists and is an arrow function or function expression, the tracked set becomes
the old set with that first argument added (and nothing else); otherwise, in particular
for a non-effect callee, no arguments, or a first argument of another type such as an
`Identifier`, the state is unchanged. -/
theorem CallExpression_spec (node : Loc) (st : State) :
    (CallExpression node st).reports = st.reports ∧
    (∀ firstArg, isEffectCall node.node = true → node.node.arguments.head? = some firstArg →
      (firstArg.type = "ArrowFunctionExpression" ∨ firstArg.type = "FunctionExpression") →
      ∀ x, x ∈ (CallExpression node st).effectFunctions ↔
        x ∈ st.effectFunctions ∨ x = (Loc.child (Slot.arguments 0) firstArg node).id) ∧
    (isEffectCall node.node = false → CallExpression node st = st) ∧
    (node.node.arguments = [] → CallExpression node st = st) ∧
    (∀ firstArg, node.node.arguments.head? = some firstArg →
      firstArg.type ≠ "ArrowFunctionExpression" → firstArg.type ≠ "FunctionExpression" →
      CallExpression node st = st) := by
  refine ⟨CallExpression_reports node st, ?_, ?_, ?_, ?_⟩
  · intro firstArg h1 harg hlit x
    rw [CallExpression_registers node st firstArg ((isEffectCall_eq_true_iff _).1 h1) harg hlit]
    exact mem_setAdd _ _ _
  · intro h1
    apply CallExpression_skips
    rintro ⟨hc, -⟩
    rw [(isEffectCall_eq_true_iff _).2 hc] at h1
    exact Bool.noConfusion h1
  · intro h0
    apply CallExpression_skips
    rintro ⟨-, firstArg, harg, -⟩
    rw [h0] at harg
    exact Option.noConfusion harg
  · intro firstArg harg h1 h2
    apply CallExpression_skips
    rintro ⟨-, firstArg2, harg2, hlit⟩
    rw [harg] at harg2
    cases harg2
    rcases hlit with h | h
    · exact h1 h
    · exact h2 h

theorem ReturnStatement_untracked (sourceCode : SourceCode) (node : Loc) (st : State)
    (h : isInTopLevelEffectFunction st.effectFunctions node = none) :
    ReturnStatement sourceCode node st = st := by
  simp only [ReturnStatement, h]

theorem ReturnStatement_function (sourceCode : SourceCode) (node : Loc) (st : State)
    (argument : Node) (harg : node.node.argument = some argument)
    (hlit : IsFunctionLiteral argument.type) :
    ReturnStatement sourceCode node st = st := by
  unfold ReturnStatement
  split
  · rfl
  · simp only [harg]
    rcases hlit with h | h <;> simp [h]

theorem ReturnStatement_noValue (sourceCode : SourceCode) (node : Loc) (st : State)
    (enclosing : Loc)
    (htracked : isInTopLevelEffectFunction st.effectFunctions node = some enclosing)
    (harg : node.node.argument = none) :
    ReturnStatement sourceCode node st =
      st.report
        { node := node.id
          messageId := "returnNotFunction"
          suggest := [⟨"replaceWithFunction", fixNoValue sourceCode node⟩] } := by
  simp only [ReturnStatement, htracked, harg]

theorem ReturnStatement_nonFunction (sourceCode : SourceCode) (node : Loc) (st : State)
    (enclosing : Loc) (argument : Node)
    (htracked : isInTopLevelEffectFunction st.effectFunctions node = some enclosing)
    (harg : node.node.argument = some argument)
    (h1 : argument.type ≠ "ArrowFunctionExpression")
    (h2 : argument.type ≠ "FunctionExpression") :
    ReturnStatement sourceCode node st =
      st.report
        { node := Slot.argument :: node.id
          messageId := "returnNotFunction"
          suggest := [⟨"replaceWithFunction", fixNonFunction argument⟩] } := by
  simp [ReturnStatement, htracked, harg, h1, h2, Loc.id]

/-- C3: on a `ReturnStatement` whose argument is an arrow function or a function expression
the handler reports nothing (it leaves the whole state as it was), for every tracked set and
every position of the return. -/
theorem ReturnStatement_function_silent (sourceCode : SourceCode) (node : Loc) (st : State)
    (argument : Node) (harg : node.node.argument = some argument)
    (hlit : argument.type = "ArrowFunctionExpression" ∨ argument.type = "FunctionExpression") :
    (ReturnStatement sourceCode node st).reports = st.reports ∧
      ReturnStatement sourceCode node st = st := by
  rw [ReturnStatement_function sourceCode node st argument harg hlit]
  exact ⟨rfl, rfl⟩

theorem ReturnStatement_function_silent_witness :
    clReturnLoc.node.argument = some clCleanup ∧
    (clCleanup.type = "ArrowFunctionExpression" ∨ clCleanup.type = "FunctionExpression") ∧
    (ReturnStatement srcCleanup clReturnLoc ⟨[clArrowLoc.id], []⟩).reports = [] ∧
    ReturnStatement srcCleanup clReturnLoc ⟨[clArrowLoc.id], []⟩ = ⟨[clArrowLoc.id], []⟩ :=
  ⟨rfl, Or.inl rfl,
    ReturnStatement_function_silent srcCleanup clReturnLoc ⟨[clArrowLoc.id], []⟩ clCleanup
      rfl (Or.inl rfl)⟩

theorem isJsWhiteSpace_iff (u : Nat) :
    isJsWhiteSpace u = true ↔
      u ∈ [0x09, 0x0A, 0x0B, 0x0C, 0x0D, 0x20, 0xA0, 0x1680, 0x2000, 0x2001, 0x2002, 0x2003,
        0x2004, 0x2005, 0x2006, 0x2007, 0x2008, 0x2009, 0x200A, 0x2028, 0x2029, 0x202F, 0x205F,
        0x3000, 0xFEFF] := by
  simp only [isJsWhiteSpace, Bool.or_eq_true, Bool.and_eq_true, beq_iff_eq, decide_eq_true_eq,
    List.mem_cons, List.mem_singleton, List.not_mem_nil, or_false]
  omega

theorem dropWhile_append_cons_of_not (p : Nat → Bool) (b : Nat) (c : List Nat)
    (hb : p b = false) : ∀ a : List Nat, (a ++ b :: c).dropWhile p = a.dropWhile p ++ b :: c
  | [] => by simp [List.dropWhile, hb]
  | x :: xs => by
    cases hx : p x with
    | true =>
      simp only [List.cons_append, List.dropWhile_cons, hx, if_true]
      exact dropWhile_append_cons_of_not p b c hb xs
    | false => simp [List.dropWhile_cons, hx]

theorem dropWhile_eq_nil_of_all (p : Nat → Bool) :
    ∀ a : List Nat, (∀ u ∈ a, p u = true) → a.dropWhile p = []
  | [], _ => rfl
  | x :: xs, h => by
    simp only [List.dropWhile_cons, h x (List.mem_cons_self _ _), if_true]
    exact dropWhile_eq_nil_of_all p xs (fun u hu => h u (List.mem_cons_of_mem _ hu))

/-- The trimmed text ends with `c` exactly when the text is some text, then `c`, then
nothing but white space (for a `c` that is not white space itself). -/
theorem jsEndsWith_jsTrim_iff (t : JsString) (c : Char) (hc : isJsWhiteSpace c.toNat = false) :
    jsEndsWith (jsTrim t) c = true ↔
      ∃ before ws : JsString, t = before ++ c.toNat :: ws ∧
        ∀ u ∈ ws, isJsWhiteSpace u = true := by
  simp only [jsEndsWith, jsTrim, List.getLast?_reverse, beq_iff_eq]
  constructor
  · intro h
    have hsplit := List.takeWhile_append_dropWhile isJsWhiteSpace
      (t.dropWhile isJsWhiteSpace).reverse
    cases hd : (t.dropWhile isJsWhiteSpace).reverse.dropWhile isJsWhiteSpace with
    | nil => rw [hd] at h; exact Option.noConfusion h
    | cons x rest =>
      rw [hd] at h hsplit
      simp only [List.head?_cons, Option.some.injEq] at h
      subst h
      refine ⟨t.takeWhile isJsWhiteSpace ++ rest.reverse,
        ((t.dropWhile isJsWhiteSpace).reverse.takeWhile isJsWhiteSpace).reverse, ?_, ?_⟩
      · have h2 := congrArg List.reverse hsplit
        simp only [List.reverse_append, List.reverse_cons, List.reverse_reverse,
          List.append_assoc, List.singleton_append] at h2
        rw [List.append_assoc, h2]
        exact (List.takeWhile_append_dropWhile isJsWhiteSpace t).symm
      · intro u hu
        exact List.mem_takeWhile_imp (List.mem_reverse.1 hu)
  · rintro ⟨before, ws, ht, hws⟩
    subst ht
    rw [dropWhile_append_cons_of_not isJsWhiteSpace c.toNat ws hc before]
    simp only [List.reverse_append, List.reverse_cons, List.append_assoc, List.singleton_append]
    rw [dropWhile_append_cons_of_not isJsWhiteSpace c.toNat _ hc ws.reverse,
      dropWhile_eq_nil_of_all isJsWhiteSpace ws.reverse
        (fun u hu => hws u (List.mem_reverse.1 hu))]
    rfl

/-- C7: a reported `return` without a value carries one suggestion whose fix replaces the
range of the whole `ReturnStatement` node; its text is `return () => {};` when the source
text of the node, cut at its range in UTF-16 units, is some text, a `;`, and then only
white space or line terminators, that is when the trimmed text ends with `;`, and it is
`return () => {}` otherwise. -/
theorem ReturnStatement_noValue_fix (sourceCode : SourceCode) (node : Loc) (st : State)
    (enclosing : Loc)
    (htracked : isInTopLevelEffectFunction st.effectFunctions node = some enclosing)
    (harg : node.node.argument = none) :
    ∃ fix : Fix,
      (ReturnStatement sourceCode node st).reports =
        st.reports ++ [⟨node.id, "returnNotFunction", [⟨"replaceWithFunction", fix⟩]⟩] ∧
      fix.range = node.node.range ∧
      (fix.text = "return () => {};" ∨ fix.text = "return () => {}") ∧
      (fix.text = "return () => {};" ↔
        ∃ before ws : List Nat,
          (sourceCode.text.drop node.node.range.1).take
            (node.node.range.2 - node.node.range.1) = before ++ ';'.toNat :: ws ∧
          ∀ u ∈ ws, u ∈ [0x09, 0x0A, 0x0B, 0x0C, 0x0D, 0x20, 0xA0, 0x1680, 0x2000, 0x2001,
            0x2002, 0x2003, 0x2004, 0x2005, 0x2006, 0x2007, 0x2008, 0x2009, 0x200A, 0x2028,
            0x2029, 0x202F, 0x205F, 0x3000, 0xFEFF]) := by
  have hchar := jsEndsWith_jsTrim_iff (sourceCode.getText node.node) ';' (by decide)
  simp only [isJsWhiteSpace_iff] at hchar
  refine ⟨fixNoValue sourceCode node, ?_, rfl, ?_, ?_⟩
  · rw [ReturnStatement_noValue sourceCode node st enclosing htracked harg]
    rfl
  · cases h : jsEndsWith (jsTrim (sourceCode.getText node.node)) ';' with
    | true =>
      left
      simp only [fixNoValue, replaceText, h, if_true]
      decide
    | false =>
      right
      simp only [fixNoValue, replaceText, h]
      decide
  · rw [← show sourceCode.getText node.node =
      (sourceCode.text.drop node.node.range.1).take
        (node.node.range.2 - node.node.range.1) from rfl, ← hchar]
    cases h : jsEndsWith (jsTrim (sourceCode.getText node.node)) ';' with
    | true =>
      simp only [fixNoValue, replaceText, h, if_true]
      decide
    | false =>
      simp only [fixNoValue, replaceText, h]
      decide

theorem ReturnStatement_noValue_fix_witness :
    isInTopLevelEffectFunction [rnArrowLoc.id] rnReturnLoc = some rnArrowLoc ∧
    rnReturnLoc.node.argument = none ∧
    (∃ fix : Fix,
      (ReturnStatement srcReturnNothing rnReturnLoc ⟨[rnArrowLoc.id], []⟩).reports =
        [] ++ [⟨rnReturnLoc.id, "returnNotFunction", [⟨"replaceWithFunction", fix⟩]⟩] ∧
      fix.range = rnReturnLoc.node.range ∧
      (fix.text = "return () => {};" ∨ fix.text = "return () => {}") ∧
      (fix.text = "return () => {};" ↔
        ∃ before ws : List Nat,
          (srcReturnNothing.text.drop rnReturnLoc.node.range.1).take
            (rnReturnLoc.node.range.2 - rnReturnLoc.node.range.1) =
            before ++ ';'.toNat :: ws ∧
          ∀ u ∈ ws, u ∈ [0x09, 0x0A, 0x0B, 0x0C, 0x0D, 0x20, 0xA0, 0x1680, 0x2000, 0x2001,
            0x2002, 0x2003, 0x2004, 0x2005, 0x2006, 0x2007, 0x2008, 0x2009, 0x200A, 0x2028,
            0x2029, 0x202F, 0x205F, 0x3000, 0xFEFF])) ∧
    srcReturnNothing.getText rnReturnLoc.node = jsString "return;" ∧
    (ReturnStatement srcReturnNothing rnReturnLoc ⟨[rnArrowLoc.id], []⟩).reports =
      [⟨rnReturnLoc.id, "returnNotFunction",
        [⟨"replaceWithFunction", ⟨(18, 25), "return () => {};"⟩⟩]⟩] ∧
    applyFix srcReturnNothing.text ⟨(18, 25), "return () => {};"⟩ =
      jsString "useEffect(() => { return () => {}; });" ∧
    lint srcReturnSolo astReturnSolo =
      [⟨soleReturnId, "returnNotFunction",
        [⟨"replaceWithFunction", ⟨(18, 24), "return () => {}"⟩⟩]⟩] ∧
    applyFix srcReturnSolo.text ⟨(18, 24), "return () => {}"⟩ =
      jsString "useEffect(() => { return () => {} });" ∧
    utf16 [Char.ofNat 0x1F600] = [0xD83D, 0xDE00] ∧
    srcAstral.getText asReturn = jsString "return;" ∧
    lint srcAstral astAstral =
      [⟨soleReturnId, "returnNotFunction",
        [⟨"replaceWithFunction", ⟨(27, 34), "return () => {};"⟩⟩]⟩] ∧
    jsEndsWith (jsTrim (jsString " return ; \n")) ';' = true ∧
    jsEndsWith (jsTrim (jsString "return;x ")) ';' = false :=
  ⟨rfl, rfl,
    ReturnStatement_noValue_fix srcReturnNothing rnReturnLoc ⟨[rnArrowLoc.id], []⟩ rnArrowLoc
      rfl rfl,
    by decide, by decide, by decide, by decide, by decide, by decide, by decide, by decide,
    by decide, by decide⟩

/-- C8: a reported `return` of a non-function carries one suggestion whose fix replaces
exactly the range of the argument expression, so that the text before and after that range
stays as it was, and its text is the constant `() => {};` whatever the source text is. -/
theorem ReturnStatement_nonFunction_fix (sourceCode : SourceCode) (node : Loc) (st : State)
    (enclosing : Loc) (argument : Node)
    (htracked : isInTopLevelEffectFunction st.effectFunctions node = some enclosing)
    (harg : node.node.argument = some argument)
    (h1 : argument.type ≠ "ArrowFunctionExpression")
    (h2 : argument.type ≠ "FunctionExpression") :
    ∃ fix : Fix,
      (ReturnStatement sourceCode node st).reports =
        st.reports ++
          [⟨(Loc.child Slot.argument argument node).id, "returnNotFunction",
            [⟨"replaceWithFunction", fix⟩]⟩] ∧
      fix.range = argument.range ∧
      fix.text = "() => {};" ∧
      ∀ text : JsString,
        applyFix text fix =
          text.take argument.range.1 ++ jsString "() => {};" ++ text.drop argument.range.2 := by
  refine ⟨fixNonFunction argument, ?_, rfl, rfl, fun _ => rfl⟩
  rw [ReturnStatement_nonFunction sourceCode node st enclosing argument htracked harg h1 h2]
  rfl

/-! ## The traversal: what is tracked when a node is entered -/

theorem run_append (sourceCode : SourceCode) (xs ys : List Event) (st : State) :
    run sourceCode (xs ++ ys) st = run sourceCode ys (run sourceCode xs st) := by
  simp [run, List.foldl_append]

theorem atEnter_append (Q : State → Loc → Prop) (sourceCode : SourceCode) :
    ∀ (xs ys : List Event) (st : State),
      AtEnter Q sourceCode xs st → AtEnter Q sourceCode ys (run sourceCode xs st) →
      AtEnter Q sourceCode (xs ++ ys) st
  | [], _, _, _, h => h
  | .enter _ :: xs, ys, _, h1, h2 =>
    ⟨h1.1, atEnter_append Q sourceCode xs ys _ h1.2 h2⟩
  | .exit x :: xs, ys, st, h1, h2 =>
    atEnter_append Q sourceCode xs ys (dispatch sourceCode st (.exit x)) h1 h2

theorem atEnter_split (Q : State → Loc → Prop) (sourceCode : SourceCode) :
    ∀ (before : List Event) (x : Loc) (after : List Event) (st : State),
      AtEnter Q sourceCode (before ++ .enter x :: after) st → Q (run sourceCode before st) x
  | [], _, _, _, h => h.1
  | .enter _ :: before, x, after, _, h =>
    atEnter_split Q sourceCode before x after _ h.2
  | .exit y :: before, x, after, st, h =>
    atEnter_split Q sourceCode before x after (dispatch sourceCode st (.exit y)) h

theorem ReturnStatement_effectFunctions (sourceCode : SourceCode) (node : Loc) (st : State) :
    (ReturnStatement sourceCode node st).effectFunctions = st.effectFunctions := by
  unfold ReturnStatement
  split
  · rfl
  · split
    · rfl
    · split <;> rfl

theorem CallExpression_mono (node : Loc) (st : State) (t : NodeId)
    (h : t ∈ st.effectFunctions) : t ∈ (CallExpression node st).effectFunctions := by
  unfold CallExpression
  split
  · split
    · exact h
    · split
      · exact (mem_setAdd _ _ _).2 (Or.inl h)
      · exact h
  · exact h

theorem dispatch_enter_mono (sourceCode : SourceCode) (st : State) (l : Loc) (t : NodeId)
    (h : t ∈ st.effectFunctions) :
    t ∈ (dispatch sourceCode st (.enter l)).effectFunctions := by
  simp only [dispatch]
  split
  · exact CallExpression_mono l st t h
  · split
    · rw [ReturnStatement_effectFunctions]; exact h
    · exact h

theorem dispatch_keeps (sourceCode : SourceCode) (st : State) (e : Event) (t : NodeId)
    (h : t ∈ st.effectFunctions) (hne : e.loc.id ≠ t) :
    t ∈ (dispatch sourceCode st e).effectFunctions := by
  cases e with
  | enter l => exact dispatch_enter_mono sourceCode st l t h
  | exit l =>
    simp only [dispatch]
    split
    · exact (mem_setDelete _ _ _).2 ⟨h, fun h2 => hne h2.symm⟩
    · exact h

theorem run_keeps (sourceCode : SourceCode) (t : NodeId) :
    ∀ (events : List Event) (st : State), t ∈ st.effectFunctions →
      (∀ e ∈ events, e.loc.id ≠ t) → t ∈ (run sourceCode events st).effectFunctions
  | [], _, h, _ => h
  | e :: es, st, h, hne =>
    run_keeps sourceCode t es (dispatch sourceCode st e)
      (dispatch_keeps sourceCode st e t h (hne e (List.mem_cons_self _ _)))
      (fun e2 he2 => hne e2 (List.mem_cons_of_mem _ he2))

theorem dispatch_registers (sourceCode : SourceCode) (st : State) (call : Loc)
    (h : Registers call) :
    (Slot.arguments 0 :: call.id) ∈ (dispatch sourceCode st (.enter call)).effectFunctions := by
  obtain ⟨hty, hcallee, firstArg, harg, hlit⟩ := h
  simp only [dispatch, hty, if_true]
  rw [CallExpression_registers call st firstArg hcallee harg hlit]
  exact (mem_setAdd _ _ _).2 (Or.inr rfl)

theorem length_id_of_mem_getAncestors :
    ∀ (x a : Loc), a ∈ getAncestors x → a.id.length < x.id.length
  | .root _, _, h => by simp [getAncestors] at h
  | .child s n p, a, h => by
    simp only [getAncestors, List.mem_cons] at h
    simp only [Loc.id, List.length_cons]
    rcases h with h | h
    · subst h; exact Nat.lt_succ_self _
    · exact Nat.lt_succ_of_lt (length_id_of_mem_getAncestors p a h)

mutual
theorem walk_ids : ∀ (n : Node) (here : Loc) (e : Event),
    e ∈ walk n here → here.id <:+ e.loc.id
  | .mk _ _ _ callee arguments argument children, here, e, h => by
    simp only [walk, List.mem_append, List.mem_singleton] at h
    rcases h with ((((h | h) | h) | h) | h) | h
    · subst h; exact List.suffix_refl _
    · exact (List.suffix_cons _ _).trans (walkOpt_ids callee _ here e h)
    · obtain ⟨j, -, hj⟩ := walkList_ids arguments 0 _ here e h
      exact (List.suffix_cons _ _).trans hj
    · exact (List.suffix_cons _ _).trans (walkOpt_ids argument _ here e h)
    · obtain ⟨j, -, hj⟩ := walkList_ids children 0 _ here e h
      exact (List.suffix_cons _ _).trans hj
    · subst h; exact List.suffix_refl _
theorem walkOpt_ids : ∀ (o : Option Node) (s : Slot) (p : Loc) (e : Event),
    e ∈ walkOpt o s p → (s :: p.id) <:+ e.loc.id
  | none, _, _, _, h => by simp [walkOpt] at h
  | some n, s, p, e, h => by
    simp only [walkOpt] at h
    exact walk_ids n _ e h
theorem walkList_ids : ∀ (l : List Node) (i : Nat) (f : Nat → Slot) (p : Loc) (e : Event),
    e ∈ walkList l i f p → ∃ j, i ≤ j ∧ (f j :: p.id) <:+ e.loc.id
  | [], _, _, _, _, h => by simp [walkList] at h
  | n :: ns, i, f, p, e, h => by
    simp only [walkList, List.mem_append] at h
    rcases h with h | h
    · exact ⟨i, Nat.le_refl _, walk_ids n _ e h⟩
    · obtain ⟨j, hj, hs⟩ := walkList_ids ns (i + 1) f p e h
      exact ⟨j, Nat.le_of_succ_le hj, hs⟩
end

theorem tracksAncestors_child (st : State) (s : Slot) (n : Node) (p : Loc)
    (hp : TracksAncestors st p)
    (hs : s = Slot.arguments 0 → Registers p → (s :: p.id) ∈ st.effectFunctions) :
    TracksAncestors st (Loc.child s n p) := by
  intro a ha hreg
  rcases ha with ha | ha
  · subst ha
    exact hs hreg.1 hreg.2
  · simp only [getAncestors, List.mem_cons] at ha
    exact hp a ha hreg

theorem tracksAncestors_run (sourceCode : SourceCode) (events : List Event) (st : State)
    (p : Loc) (hp : TracksAncestors st p)
    (hlen : ∀ e ∈ events, p.id.length < e.loc.id.length) :
    TracksAncestors (run sourceCode events st) p := by
  intro a ha hreg
  apply run_keeps sourceCode a.id events st (hp a ha hreg)
  intro e he heq
  have h1 := hlen e he
  rw [heq] at h1
  rcases ha with ha | ha
  · subst ha; exact Nat.lt_irrefl _ h1
  · exact Nat.lt_irrefl _ (Nat.lt_trans h1 (length_id_of_mem_getAncestors p a ha))

theorem length_lt_of_cons_suffix (s : Slot) (p t : NodeId) (h : (s :: p) <:+ t) :
    p.length < t.length := by
  have := h.length_le
  simp only [List.length_cons] at this
  omega

theorem eq_of_cons_suffix_cons (s s2 : Slot) (p : NodeId) (h : (s :: p) <:+ (s2 :: p)) :
    s = s2 := by
  have h2 := h.eq_of_length (by simp)
  exact (List.cons.inj h2).1

mutual
theorem walk_tracks (sourceCode : SourceCode) : ∀ (n : Node) (here : Loc) (st : State),
    TracksAncestors st here →
    AtEnter TracksAncestors sourceCode (walk n here) st
  | .mk _ _ _ callee arguments argument children, here, st, hinv => by
    simp only [walk]
    have hlenOpt : ∀ (o : Option Node) (s : Slot), ∀ e ∈ walkOpt o s here,
        here.id.length < e.loc.id.length := fun o s e he =>
      length_lt_of_cons_suffix _ _ _ (walkOpt_ids o s here e he)
    have hlenList : ∀ (l : List Node) (f : Nat → Slot), ∀ e ∈ walkList l 0 f here,
        here.id.length < e.loc.id.length := fun l f e he => by
      obtain ⟨j, -, hj⟩ := walkList_ids l 0 f here e he
      exact length_lt_of_cons_suffix _ _ _ hj
    -- the state in which the children are walked
    have h1 : TracksAncestors (dispatch sourceCode st (.enter here)) here :=
      fun a ha hreg => dispatch_enter_mono sourceCode st here a.id (hinv a ha hreg)
    have h2 := tracksAncestors_run sourceCode (walkOpt callee Slot.callee here) _ here h1
      (hlenOpt _ _)
    have h3 := tracksAncestors_run sourceCode (walkList arguments 0 Slot.arguments here) _ here
      h2 (hlenList _ _)
    have h4 := tracksAncestors_run sourceCode (walkOpt argument Slot.argument here) _ here h3
      (hlenOpt _ _)
    have hA : AtEnter TracksAncestors sourceCode [Event.enter here] st := ⟨hinv, trivial⟩
    have hB := walkOpt_tracks sourceCode callee Slot.callee here _ h1
      (fun h => Slot.noConfusion h)
    have hC := walkList_tracks sourceCode arguments 0 Slot.arguments here
      (run sourceCode (walkOpt callee Slot.callee here)
        (dispatch sourceCode st (.enter here)))
      (fun i j h => Slot.arguments.inj h) h2
      (fun j _ hj hreg => by
        rw [hj]
        apply run_keeps sourceCode _ _ _ (dispatch_registers sourceCode st here hreg)
        intro e he heq
        have hs := walkOpt_ids callee Slot.callee here e he
        rw [heq] at hs
        exact Slot.noConfusion (eq_of_cons_suffix_cons _ _ _ hs))
    have hD := walkOpt_tracks sourceCode argument Slot.argument here _ h3
      (fun h => Slot.noConfusion h)
    have hE := walkList_tracks sourceCode children 0 Slot.child here _
      (fun i j h => Slot.child.inj h) h4 (fun j _ h _ => Slot.noConfusion h)
    refine atEnter_append _ _ _ _ _
      (atEnter_append _ _ _ _ _
        (atEnter_append _ _ _ _ _
          (atEnter_append _ _ _ _ _
            (atEnter_append _ _ _ _ _ hA ?_) ?_) ?_) ?_) ?_
    · exact hB
    · simpa only [run_append] using hC
    · simpa only [run_append] using hD
    · simpa only [run_append] using hE
    · exact trivial
theorem walkOpt_tracks (sourceCode : SourceCode) : ∀ (o : Option Node) (s : Slot) (p : Loc)
    (st : State), TracksAncestors st p →
    (s = Slot.arguments 0 → Registers p → (s :: p.id) ∈ st.effectFunctions) →
    AtEnter TracksAncestors sourceCode (walkOpt o s p) st
  | none, _, _, _, _, _ => trivial
  | some n, s, p, st, hp, hs => by
    simp only [walkOpt]
    exact walk_tracks sourceCode n _ st (tracksAncestors_child st s n p hp hs)
theorem walkList_tracks (sourceCode : SourceCode) : ∀ (l : List Node) (i : Nat)
    (f : Nat → Slot) (p : Loc) (st : State), Function.Injective f → TracksAncestors st p →
    (∀ j, i ≤ j → f j = Slot.arguments 0 → Registers p →
      (f j :: p.id) ∈ st.effectFunctions) →
    AtEnter TracksAncestors sourceCode (walkList l i f p) st
  | [], _, _, _, _, _, _, _ => trivial
  | n :: ns, i, f, p, st, hf, hp, hs => by
    simp only [walkList]
    apply atEnter_append
    · exact walk_tracks sourceCode n _ st
        (tracksAncestors_child st (f i) n p hp (hs i (Nat.le_refl _)))
    · apply walkList_tracks sourceCode ns (i + 1) f p _ hf
      · apply tracksAncestors_run sourceCode _ st p hp
        intro e he
        exact length_lt_of_cons_suffix _ _ _ (walk_ids n _ e he)
      · intro j hj hfj hreg
        apply run_keeps sourceCode _ _ st (hs j (Nat.le_of_succ_le hj) hfj hreg)
        intro e he heq
        have hsuf := walk_ids n (Loc.child (f i) n p) e he
        rw [heq] at hsuf
        have := hf (eq_of_cons_suffix_cons _ _ _ hsuf)
        omega
end

theorem linked_of_mem_getAncestors :
    ∀ (x a : Loc), x.Linked → a ∈ getAncestors x → a.Linked
  | .root _, _, _, h => by simp [getAncestors] at h
  | .child s n p, a, hx, h => by
    simp only [getAncestors, List.mem_cons] at h
    rcases h with h | h
    · subst h; exact hx.2
    · exact linked_of_mem_getAncestors p a hx.2 h

mutual
theorem walk_linked : ∀ (n : Node) (here : Loc) (e : Event),
    here.node = n → here.Linked → e ∈ walk n here → e.loc.Linked
  | .mk _ _ _ callee arguments argument children, here, e, hn, hl, h => by
    simp only [walk, List.mem_append, List.mem_singleton] at h
    rcases h with ((((h | h) | h) | h) | h) | h
    · subst h; exact hl
    · exact walkOpt_linked callee _ here e hl (by rw [hn]; rfl) h
    · exact walkList_linked arguments 0 _ here e hl
        (fun k c hk => by simpa [Node.childAt, hn, Node.arguments] using hk) h
    · exact walkOpt_linked argument _ here e hl (by rw [hn]; rfl) h
    · exact walkList_linked children 0 _ here e hl
        (fun k c hk => by simpa [Node.childAt, hn, Node.children] using hk) h
    · subst h; exact hl
theorem walkOpt_linked : ∀ (o : Option Node) (s : Slot) (p : Loc) (e : Event),
    p.Linked → p.node.childAt s = o → e ∈ walkOpt o s p → e.loc.Linked
  | none, _, _, _, _, _, h => by simp [walkOpt] at h
  | some n, s, p, e, hl, ho, h => by
    simp only [walkOpt] at h
    exact walk_linked n (Loc.child s n p) e rfl ⟨ho, hl⟩ h
theorem walkList_linked : ∀ (l : List Node) (i : Nat) (f : Nat → Slot) (p : Loc) (e : Event),
    p.Linked → (∀ k c, l.get? k = some c → p.node.childAt (f (i + k)) = some c) →
    e ∈ walkList l i f p → e.loc.Linked
  | [], _, _, _, _, _, _, h => by simp [walkList] at h
  | n :: ns, i, f, p, e, hl, hk, h => by
    simp only [walkList, List.mem_append] at h
    rcases h with h | h
    · exact walk_linked n (Loc.child (f i) n p) e rfl ⟨hk 0 n rfl, hl⟩ h
    · refine walkList_linked ns (i + 1) f p e hl (fun k c hc => ?_) h
      have := hk (k + 1) c hc
      rwa [show i + 1 + k = i + (k + 1) by omega]
end

theorem traverse_linked (root : Node) (e : Event) (h : e ∈ traverse root) : e.loc.Linked :=
  walk_linked root (Loc.root root) e rfl trivial h

theorem traverse_tracks (sourceCode : SourceCode) (root : Node) (before after : List Event)
    (x : Loc) (h : traverse root = before ++ Event.enter x :: after) :
    TracksAncestors (run sourceCode before State.init) x := by
  have h1 := walk_tracks sourceCode root (Loc.root root) State.init (by
    intro a ha hreg
    rcases ha with ha | ha
    · subst ha; exact hreg.elim
    · simp [getAncestors] at ha)
  rw [show walk root (Loc.root root) = traverse root from rfl, h] at h1
  exact atEnter_split _ _ _ _ _ _ h1

/-- Inside a traversal, a node that has an effect callback among its ancestors is entered
in a state where `isInTopLevelEffectFunction` finds a tracked ancestor. -/
theorem traverse_finds (sourceCode : SourceCode) (root : Node) (before after : List Event)
    (x call : Loc) (f : Node)
    (h : traverse root = before ++ Event.enter x :: after)
    (hanc : Loc.child (Slot.arguments 0) f call ∈ getAncestors x)
    (hcall : call.type = "CallExpression") (hcallee : HasEffectCallee call.node)
    (hlit : IsFunctionLiteral f.type) :
    ∃ enclosing, isInTopLevelEffectFunction
      (run sourceCode before State.init).effectFunctions x = some enclosing := by
  have hx : x.Linked := traverse_linked root (Event.enter x) (by rw [h]; simp)
  have hF := linked_of_mem_getAncestors x _ hx hanc
  have hreg : Registered (Loc.child (Slot.arguments 0) f call) := by
    refine ⟨rfl, hcall, hcallee, f, ?_, hlit⟩
    have := hF.1
    simp only [Node.childAt] at this
    rw [← this]
    cases call.node.arguments <;> rfl
  have hmem := traverse_tracks sourceCode root before after x h _ (Or.inr hanc) hreg
  have hsome : ((getAncestors x).find? (fun ancestor =>
      (ancestor.type == "FunctionExpression" || ancestor.type == "ArrowFunctionExpression") &&
        setHas (run sourceCode before State.init).effectFunctions ancestor.id)).isSome := by
    rw [List.find?_isSome]
    refine ⟨_, hanc, ?_⟩
    have ht : (Loc.child (Slot.arguments 0) f call).type = f.type := rfl
    simp only [setHas, ht, hmem, decide_True, Bool.and_true]
    rcases hlit with h | h <;> simp [h]
  exact Option.isSome_iff_exists.1 hsome

theorem mem_getAncestors_of_nearestFunction (x F : Loc) (h : nearestFunction x = some F) :
    F ∈ getAncestors x :=
  List.mem_of_find?_eq_some h

theorem ReturnStatement_nonFunction_fix_witness :
    isInTopLevelEffectFunction [irArrowLoc.id] irReturnLoc = some irArrowLoc ∧
    irReturnLoc.node.argument = some irDoThing ∧
    irDoThing.type ≠ "ArrowFunctionExpression" ∧ irDoThing.type ≠ "FunctionExpression" ∧
    ∃ fix : Fix,
      (ReturnStatement srcIfReturn irReturnLoc ⟨[irArrowLoc.id], []⟩).reports =
        [] ++
          [⟨(Loc.child Slot.argument irDoThing irReturnLoc).id, "returnNotFunction",
            [⟨"replaceWithFunction", fix⟩]⟩] ∧
      fix.range = irDoThing.range ∧
      fix.text = "() => {};" ∧
      ∀ text : JsString,
        applyFix text fix =
          text.take irDoThing.range.1 ++ jsString "() => {};" ++ text.drop irDoThing.range.2 :=
  ⟨rfl, rfl, by decide, by decide,
    ReturnStatement_nonFunction_fix srcIfReturn irReturnLoc ⟨[irArrowLoc.id], []⟩ irArrowLoc
      irDoThing rfl rfl (by decide) (by decide)⟩

theorem dispatch_reports (sourceCode : SourceCode) (st : State) (e : Event) :
    ∃ more, (dispatch sourceCode st e).reports = st.reports ++ more := by
  cases e with
  | enter l =>
    simp only [dispatch]
    split
    · exact ⟨[], by rw [CallExpression_reports, List.append_nil]⟩
    · split
      · unfold ReturnStatement
        split
        · exact ⟨[], (List.append_nil _).symm⟩
        · split
          · exact ⟨_, rfl⟩
          · split
            · exact ⟨_, rfl⟩
            · exact ⟨[], (List.append_nil _).symm⟩
      · exact ⟨[], (List.append_nil _).symm⟩
  | exit l =>
    simp only [dispatch]
    split
    · exact ⟨[], (List.append_nil _).symm⟩
    · exact ⟨[], (List.append_nil _).symm⟩

theorem run_reports (sourceCode : SourceCode) :
    ∀ (events : List Event) (st : State),
      ∃ more, (run sourceCode events st).reports = st.reports ++ more
  | [], st => ⟨[], (List.append_nil _).symm⟩
  | e :: es, st => by
    obtain ⟨m1, h1⟩ := dispatch_reports sourceCode st e
    obtain ⟨m2, h2⟩ := run_reports sourceCode es (dispatch sourceCode st e)
    refine ⟨m1 ++ m2, ?_⟩
    rw [show run sourceCode (e :: es) st = run sourceCode es (dispatch sourceCode st e) from rfl,
      h2, h1, List.append_assoc]

theorem lint_split (sourceCode : SourceCode) (root : Node) (before after : List Event)
    (e : Event) (h : traverse root = before ++ e :: after) :
    ∃ later, lint sourceCode root =
      (dispatch sourceCode (run sourceCode before State.init) e).reports ++ later := by
  obtain ⟨more, hm⟩ := run_reports sourceCode after
    (dispatch sourceCode (run sourceCode before State.init) e)
  refine ⟨more, ?_⟩
  rw [← hm, lint, h, run_append]
  rfl

theorem dispatch_enter_return (sourceCode : SourceCode) (st : State) (l : Loc)
    (h : l.type = "ReturnStatement") :
    dispatch sourceCode st (Event.enter l) = ReturnStatement sourceCode l st := by
  simp only [dispatch, h]
  rw [if_neg (by decide), if_pos trivial]

/-- C1: in a traversal from the empty set, a `return` without a value whose nearest enclosing
function is the function-literal first argument of a `useEffect` or `useLayoutEffect` call
makes the `ReturnStatement` handler emit exactly one report, on the `ReturnStatement` node
itself; that report is part of the result of the pass. -/
theorem effect_return_noValue_reported (sourceCode : SourceCode) (root : Node)
    (before after : List Event) (ret call : Loc) (f : Node)
    (htraverse : traverse root = before ++ Event.enter ret :: after)
    (hret : ret.type = "ReturnStatement")
    (hnone : ret.node.argument = none)
    (hnearest : nearestFunction ret = some (Loc.child (Slot.arguments 0) f call))
    (hcall : call.type = "CallExpression")
    (hcallee : ∃ callee, call.node.callee = some callee ∧ callee.type = "Identifier" ∧
      (callee.name = some "useEffect" ∨ callee.name = some "useLayoutEffect"))
    (hlit : f.type = "ArrowFunctionExpression" ∨ f.type = "FunctionExpression") :
    ∃ report : Report, report.node = ret.id ∧
      (dispatch sourceCode (run sourceCode before State.init) (Event.enter ret)).reports =
        (run sourceCode before State.init).reports ++ [report] ∧
      ∃ later, lint sourceCode root =
        (run sourceCode before State.init).reports ++ [report] ++ later := by
  obtain ⟨enclosing, henc⟩ := traverse_finds sourceCode root before after ret call f htraverse
    (mem_getAncestors_of_nearestFunction _ _ hnearest) hcall hcallee hlit
  have hd := dispatch_enter_return sourceCode (run sourceCode before State.init) ret hret
  refine ⟨⟨ret.id, "returnNotFunction", [⟨"replaceWithFunction", fixNoValue sourceCode ret⟩]⟩,
    rfl, ?_, ?_⟩
  · rw [hd, ReturnStatement_noValue sourceCode ret _ enclosing henc hnone]
    rfl
  · obtain ⟨later, hl⟩ := lint_split sourceCode root before after _ htraverse
    refine ⟨later, ?_⟩
    rw [hl, hd, ReturnStatement_noValue sourceCode ret _ enclosing henc hnone]
    rfl

theorem effect_return_noValue_reported_witness :
    traverse astReturnNothing =
      [Event.enter rnProgramLoc, Event.enter rnStmtLoc, Event.enter rnCallLoc,
        Event.enter rnCalleeLoc, Event.exit rnCalleeLoc, Event.enter rnArrowLoc,
        Event.enter rnBlockLoc] ++ Event.enter rnReturnLoc ::
      [Event.exit rnReturnLoc, Event.exit rnBlockLoc, Event.exit rnArrowLoc,
        Event.exit rnCallLoc, Event.exit rnStmtLoc, Event.exit rnProgramLoc] ∧
    rnReturnLoc.type = "ReturnStatement" ∧ rnReturnLoc.node.argument = none ∧
    nearestFunction rnReturnLoc = some (Loc.child (Slot.arguments 0) rnArrow rnCallLoc) ∧
    ∃ report : Report, report.node = rnReturnLoc.id ∧
      (dispatch srcReturnNothing
        (run srcReturnNothing
          [Event.enter rnProgramLoc, Event.enter rnStmtLoc, Event.enter rnCallLoc,
            Event.enter rnCalleeLoc, Event.exit rnCalleeLoc, Event.enter rnArrowLoc,
            Event.enter rnBlockLoc] State.init)
        (Event.enter rnReturnLoc)).reports =
        (run srcReturnNothing
          [Event.enter rnProgramLoc, Event.enter rnStmtLoc, Event.enter rnCallLoc,
            Event.enter rnCalleeLoc, Event.exit rnCalleeLoc, Event.enter rnArrowLoc,
            Event.enter rnBlockLoc] State.init).reports ++ [report] ∧
      ∃ later, lint srcReturnNothing astReturnNothing =
        (run srcReturnNothing
          [Event.enter rnProgramLoc, Event.enter rnStmtLoc, Event.enter rnCallLoc,
            Event.enter rnCalleeLoc, Event.exit rnCalleeLoc, Event.enter rnArrowLoc,
            Event.enter rnBlockLoc] State.init).reports ++ [report] ++ later :=
  ⟨rfl, rfl, rfl, rfl,
    effect_return_noValue_reported srcReturnNothing astReturnNothing _ _ rnReturnLoc rnCallLoc
      rnArrow rfl rfl rfl rfl rfl ⟨rnCallee, rfl, rfl, Or.inl rfl⟩ (Or.inl rfl)⟩

/-- C2: in a traversal from the empty set, a `return` whose nearest enclosing function is the
function-literal first argument of a `useEffect` or `useLayoutEffect` call and whose argument
is neither an arrow function nor a function expression makes the `ReturnStatement` handler
emit exactly one report, on the argument expression and not on the statement. -/
theorem effect_return_nonFunction_reported (sourceCode : SourceCode) (root : Node)
    (before after : List Event) (ret call : Loc) (f argument : Node)
    (htraverse : traverse root = before ++ Event.enter ret :: after)
    (hret : ret.type = "ReturnStatement")
    (harg : ret.node.argument = some argument)
    (h1 : argument.type ≠ "ArrowFunctionExpression")
    (h2 : argument.type ≠ "FunctionExpression")
    (hnearest : nearestFunction ret = some (Loc.child (Slot.arguments 0) f call))
    (hcall : call.type = "CallExpression")
    (hcallee : ∃ callee, call.node.callee = some callee ∧ callee.type = "Identifier" ∧
      (callee.name = some "useEffect" ∨ callee.name = some "useLayoutEffect"))
    (hlit : f.type = "ArrowFunctionExpression" ∨ f.type = "FunctionExpression") :
    ∃ report : Report,
      report.node = (Loc.child Slot.argument argument ret).id ∧ report.node ≠ ret.id ∧
      (dispatch sourceCode (run sourceCode before State.init) (Event.enter ret)).reports =
        (run sourceCode before State.init).reports ++ [report] ∧
      ∃ later, lint sourceCode root =
        (run sourceCode before State.init).reports ++ [report] ++ later := by
  obtain ⟨enclosing, henc⟩ := traverse_finds sourceCode root before after ret call f htraverse
    (mem_getAncestors_of_nearestFunction _ _ hnearest) hcall hcallee hlit
  have hd := dispatch_enter_return sourceCode (run sourceCode before State.init) ret hret
  have hr := ReturnStatement_nonFunction sourceCode ret _ enclosing argument henc harg h1 h2
  refine ⟨⟨Slot.argument :: ret.id, "returnNotFunction",
    [⟨"replaceWithFunction", fixNonFunction argument⟩]⟩, rfl, ?_, ?_, ?_⟩
  · intro h
    have := congrArg List.length h
    simp at this
  · rw [hd, hr]
    rfl
  · obtain ⟨later, hl⟩ := lint_split sourceCode root before after _ htraverse
    refine ⟨later, ?_⟩
    rw [hl, hd, hr]
    rfl

theorem effect_return_nonFunction_reported_witness :
    traverse astIfReturn =
      [Event.enter irProgramLoc, Event.enter irStmtLoc, Event.enter irCallLoc,
        Event.enter irCalleeLoc, Event.exit irCalleeLoc, Event.enter irArrowLoc,
        Event.enter irBlockLoc, Event.enter irIfLoc, Event.enter irTestLoc,
        Event.exit irTestLoc, Event.enter irInnerBlockLoc] ++ Event.enter irReturnLoc ::
      (walkOpt (some irDoThing) Slot.argument irReturnLoc ++
        [Event.exit irReturnLoc, Event.exit irInnerBlockLoc, Event.exit irIfLoc,
          Event.exit irBlockLoc, Event.exit irArrowLoc, Event.exit irCallLoc,
          Event.exit irStmtLoc, Event.exit irProgramLoc]) ∧
    irReturnLoc.type = "ReturnStatement" ∧ irReturnLoc.node.argument = some irDoThing ∧
    irDoThing.type = "CallExpression" ∧
    nearestFunction irReturnLoc = some (Loc.child (Slot.arguments 0) irArrow irCallLoc) ∧
    ∃ report : Report,
      report.node = (Loc.child Slot.argument irDoThing irReturnLoc).id ∧
      report.node ≠ irReturnLoc.id ∧
      (dispatch srcIfReturn
        (run srcIfReturn
          [Event.enter irProgramLoc, Event.enter irStmtLoc, Event.enter irCallLoc,
            Event.enter irCalleeLoc, Event.exit irCalleeLoc, Event.enter irArrowLoc,
            Event.enter irBlockLoc, Event.enter irIfLoc, Event.enter irTestLoc,
            Event.exit irTestLoc, Event.enter irInnerBlockLoc] State.init)
        (Event.enter irReturnLoc)).reports =
        (run srcIfReturn
          [Event.enter irProgramLoc, Event.enter irStmtLoc, Event.enter irCallLoc,
            Event.enter irCalleeLoc, Event.exit irCalleeLoc, Event.enter irArrowLoc,
            Event.enter irBlockLoc, Event.enter irIfLoc, Event.enter irTestLoc,
            Event.exit irTestLoc, Event.enter irInnerBlockLoc] State.init).reports ++
          [report] ∧
      ∃ later, lint srcIfReturn astIfReturn =
        (run srcIfReturn
          [Event.enter irProgramLoc, Event.enter irStmtLoc, Event.enter irCallLoc,
            Event.enter irCalleeLoc, Event.exit irCalleeLoc, Event.enter irArrowLoc,
            Event.enter irBlockLoc, Event.enter irIfLoc, Event.enter irTestLoc,
            Event.exit irTestLoc, Event.enter irInnerBlockLoc] State.init).reports ++
          [report] ++ later :=
  ⟨rfl, rfl, rfl, rfl, rfl,
    effect_return_nonFunction_reported srcIfReturn astIfReturn _ _ irReturnLoc irCallLoc
      irArrow irDoThing rfl rfl rfl (by decide) (by decide) rfl rfl
      ⟨irCallee, rfl, rfl, Or.inl rfl⟩ (Or.inl rfl)⟩

/-- C4: on `useEffect(() => { foo(() => { return 5; }); });` the nearest enclosing function
of `return 5;` is the callback passed to `foo`, which is nested in the effect callback and
is not the first argument of an effect call; the pass still reports that return, because
`isInTopLevelEffectFunction` accepts the effect callback further out. -/
theorem nested_callback_return_reported :
    nearestFunction neReturnLoc = some neInnerArrowLoc ∧
    isEffectCall neInnerCallLoc.node = false ∧
    (getAncestors neInnerArrowLoc).map Loc.id =
      [neInnerCallLoc.id, Slot.child 0 :: Slot.child 0 :: neArrowLoc.id,
        Slot.child 0 :: neArrowLoc.id, neArrowLoc.id, neCallLoc.id, [Slot.child 0], []] ∧
    isEffectCall neCallLoc.node = true ∧
    (isInTopLevelEffectFunction [neArrowLoc.id] neReturnLoc).map Loc.id =
      some neArrowLoc.id ∧
    lint srcNested astNested =
      [⟨Slot.argument :: neReturnLoc.id, "returnNotFunction",
        [⟨"replaceWithFunction", ⟨(37, 38), "() => {};"⟩⟩]⟩] := by
  refine ⟨rfl, rfl, rfl, rfl, rfl, ?_⟩
  decide

/-- C9: on `useEffect(() => { return 5; });` the suggested rewrite turns `return 5;` into
`return () => {};;`, one semicolon more than before, and on `useEffect(() => { return 5 });`
it turns `return 5`, which has no terminator, into `return () => {};`, which has one. -/
theorem nonFunction_fix_adds_semicolon :
    lint srcReturnFive astReturnFive =
      [⟨Slot.argument :: soleReturnId, "returnNotFunction",
        [⟨"replaceWithFunction", ⟨(25, 26), "() => {};"⟩⟩]⟩] ∧
    srcReturnFive.getText rfReturn = jsString "return 5;" ∧
    rewrittenStatement srcReturnFive rfReturn ⟨(25, 26), "() => {};"⟩ =
      jsString "return () => {};;" ∧
    (srcReturnFive.getText rfReturn).count ';'.toNat = 1 ∧
    (rewrittenStatement srcReturnFive rfReturn ⟨(25, 26), "() => {};"⟩).count ';'.toNat = 2 ∧
    lint srcReturnBare astReturnBare =
      [⟨Slot.argument :: soleReturnId, "returnNotFunction",
        [⟨"replaceWithFunction", ⟨(25, 26), "() => {};"⟩⟩]⟩] ∧
    srcReturnBare.getText rbReturn = jsString "return 5" ∧
    rewrittenStatement srcReturnBare rbReturn ⟨(25, 26), "() => {};"⟩ =
      jsString "return () => {};" ∧
    jsEndsWith (jsTrim (srcReturnBare.getText rbReturn)) ';' = false ∧
    jsEndsWith
      (jsTrim (rewrittenStatement srcReturnBare rbReturn ⟨(25, 26), "() => {};"⟩)) ';' =
      true := by
  refine ⟨?_, ?_, ?_, ?_, ?_, ?_, ?_, ?_, ?_, ?_⟩ <;> decide

/-- C10: on `useEffect(() => { return (5); });` the rule reports the argument `5`, and
applying the suggested replacement gives `useEffect(() => { return (() => {};); });`,
where the statement reads `return (() => {};);`. -/
theorem nonFunction_fix_inside_parentheses :
    lint srcReturnParen astReturnParen =
      [⟨Slot.argument :: soleReturnId, "returnNotFunction",
        [⟨"replaceWithFunction", ⟨(26, 27), "() => {};"⟩⟩]⟩] ∧
    srcReturnParen.getText rpReturn = jsString "return (5);" ∧
    applyFix srcReturnParen.text ⟨(26, 27), "() => {};"⟩ =
      jsString "useEffect(() => { return (() => {};); });" ∧
    rewrittenStatement srcReturnParen rpReturn ⟨(26, 27), "() => {};"⟩ =
      jsString "return (() => {};);" := by
  refine ⟨?_, ?_, ?_, ?_⟩ <;> decide

/-! ## The tracked set and the frame of the handlers -/

/-- C15: the operations on the tracked set are total functions; adding a member and deleting
a non-member change nothing, adding twice or deleting twice is the same as once, a node that
was added and then deleted is not a member, and a node object with another identity keeps
its membership even when its fields are equal to those of the node added or deleted. -/
theorem tracked_set_operations :
    (∀ (s : List NodeId) (x : NodeId), x ∈ s → setAdd s x = s) ∧
    (∀ (s : List NodeId) (x : NodeId), x ∉ s → setDelete s x = s) ∧
    (∀ (s : List NodeId) (x : NodeId), setAdd (setAdd s x) x = setAdd s x) ∧
    (∀ (s : List NodeId) (x : NodeId), setDelete (setDelete s x) x = setDelete s x) ∧
    (∀ (s : List NodeId) (x : NodeId), setHas (setDelete (setAdd s x) x) x = false) ∧
    (∀ (s : List NodeId) (x : NodeId), setHas (setAdd s x) x = true) ∧
    (∀ (s : List NodeId) (a b : Loc), a.node = b.node → a.id ≠ b.id →
      setHas (setAdd s a.id) b.id = setHas s b.id ∧
      setHas (setDelete s a.id) b.id = setHas s b.id) := by
  refine ⟨?_, ?_, ?_, ?_, ?_, ?_, ?_⟩
  · intro s x h
    simp [setAdd, h]
  · intro s x h
    unfold setDelete
    rw [List.filter_eq_self]
    intro y hy
    have : y ≠ x := fun e => h (e ▸ hy)
    simpa using this
  · intro s x
    have h : x ∈ setAdd s x := (mem_setAdd s x x).2 (Or.inr rfl)
    rw [show setAdd (setAdd s x) x =
      (if x ∈ setAdd s x then setAdd s x else setAdd s x ++ [x]) from rfl, if_pos h]
  · intro s x
    simp [setDelete, List.filter_filter]
  · intro s x
    simp [setHas, mem_setDelete]
  · intro s x
    simp [setHas, mem_setAdd]
  · intro s a b _ hne
    refine ⟨?_, ?_⟩
    · simp only [setHas, mem_setAdd]
      have : b.id ≠ a.id := fun e => hne e.symm
      simp [this]
    · simp only [setHas, mem_setDelete]
      have : b.id ≠ a.id := fun e => hne e.symm
      simp [this]

theorem dispatch_exit_function (sourceCode : SourceCode) (st : State) (l : Loc)
    (h : l.type = "FunctionExpression" ∨ l.type = "FunctionDeclaration" ∨
      l.type = "ArrowFunctionExpression") :
    dispatch sourceCode st (Event.exit l) = functionExit l st := by
  simp only [dispatch, h, if_true]

/-- C18: the `ReturnStatement` handler leaves the tracked set as it was, whether it reports
or not; each of the three function-exit handlers reports nothing, never adds a member, and
changes the membership of no node other than the one exited. -/
theorem handlers_frame :
    (∀ (sourceCode : SourceCode) (node : Loc) (st : State),
      (ReturnStatement sourceCode node st).effectFunctions = st.effectFunctions) ∧
    (∀ (sourceCode : SourceCode) (node : Loc) (st : State),
      (node.type = "FunctionExpression" ∨ node.type = "FunctionDeclaration" ∨
        node.type = "ArrowFunctionExpression") →
      (dispatch sourceCode st (Event.exit node)).reports = st.reports ∧
      (∀ y, y ∈ (dispatch sourceCode st (Event.exit node)).effectFunctions →
        y ∈ st.effectFunctions) ∧
      (∀ y, y ≠ node.id →
        (y ∈ (dispatch sourceCode st (Event.exit node)).effectFunctions ↔
          y ∈ st.effectFunctions)) ∧
      node.id ∉ (dispatch sourceCode st (Event.exit node)).effectFunctions) := by
  refine ⟨ReturnStatement_effectFunctions, ?_⟩
  intro sourceCode node st h
  rw [dispatch_exit_function sourceCode st node h]
  refine ⟨rfl, ?_, ?_, ?_⟩
  · intro y hy
    exact ((mem_setDelete _ _ _).1 hy).1
  · intro y hne
    simp only [functionExit, mem_setDelete]
    exact ⟨fun h => h.1, fun h => ⟨h, hne⟩⟩
  · intro hmem
    exact ((mem_setDelete _ _ _).1 hmem).2 rfl

/-- The shape every report of the rule has. -/
theorem dispatch_reports_shape (sourceCode : SourceCode) (st : State) (e : Event)
    (h : ∀ r ∈ st.reports, ∃ node fix,
      r = ⟨node, "returnNotFunction", [⟨"replaceWithFunction", fix⟩]⟩) :
    ∀ r ∈ (dispatch sourceCode st e).reports, ∃ node fix,
      r = ⟨node, "returnNotFunction", [⟨"replaceWithFunction", fix⟩]⟩ := by
  cases e with
  | enter l =>
    simp only [dispatch]
    split
    · rw [CallExpression_reports]; exact h
    · split
      · unfold ReturnStatement
        split
        · exact h
        · split
          · intro r hr
            simp only [State.report, List.mem_append, List.mem_singleton] at hr
            rcases hr with hr | hr
            · exact h r hr
            · exact ⟨_, _, hr⟩
          · split
            · intro r hr
              simp only [State.report, List.mem_append, List.mem_singleton] at hr
              rcases hr with hr | hr
              · exact h r hr
              · exact ⟨_, _, hr⟩
            · exact h
      · exact h
  | exit l =>
    simp only [dispatch]
    split
    · exact h
    · exact h

theorem run_reports_shape (sourceCode : SourceCode) :
    ∀ (events : List Event) (st : State),
      (∀ r ∈ st.reports, ∃ node fix,
        r = ⟨node, "returnNotFunction", [⟨"replaceWithFunction", fix⟩]⟩) →
      ∀ r ∈ (run sourceCode events st).reports, ∃ node fix,
        r = ⟨node, "returnNotFunction", [⟨"replaceWithFunction", fix⟩]⟩
  | [], _, h => h
  | e :: es, st, h =>
    run_reports_shape sourceCode es (dispatch sourceCode st e)
      (dispatch_reports_shape sourceCode st e h)

/-- C13: every report of a pass, for a missing value and for a non-function value alike,
has the message `returnNotFunction` and exactly one suggestion, whose message is
`replaceWithFunction`; reports differ only in the reported node and in the fix. -/
theorem reports_share_messages (sourceCode : SourceCode) (root : Node) :
    ∀ r ∈ lint sourceCode root,
      r.messageId = "returnNotFunction" ∧ r.suggest.length = 1 ∧
      ∃ node fix, r = ⟨node, "returnNotFunction", [⟨"replaceWithFunction", fix⟩]⟩ := by
  intro r hr
  obtain ⟨node, fix, h⟩ := run_reports_shape sourceCode (traverse root) State.init
    (fun r hr => by simp [State.init] at hr) r hr
  subst h
  exact ⟨rfl, rfl, node, fix, rfl⟩

/-! ## Returns of other expressions, trees without returns, the ancestor chain -/

/-- C14 as stated fails: a `return` of a `BinaryExpression` directly inside a tracked effect
callback is reported; on `useEffect(() => { return a + b; });` the handler reports `a + b`. -/
theorem complex_argument_not_silent :
    ¬ ∀ (sourceCode : SourceCode) (node : Loc) (st : State) (enclosing : Loc) (argument : Node),
      isInTopLevelEffectFunction st.effectFunctions node = some enclosing →
      node.node.argument = some argument →
      (argument.type = "BinaryExpression" ∨ argument.type = "MemberExpression" ∨
        argument.type = "ConditionalExpression") →
      (ReturnStatement sourceCode node st).reports = st.reports := by
  intro h
  have h1 := h srcBinary biReturnLoc ⟨[biArrowLoc.id], []⟩ biArrowLoc biSum rfl rfl (Or.inl rfl)
  revert h1
  decide

/-- C14, amended: a `return` directly inside a tracked effect callback whose argument is a
computed or complex expression (any node type other than the two function literals, such as
`BinaryExpression`, `MemberExpression` or `ConditionalExpression`) gets exactly one report,
on the argument; an effect call without arguments leaves the state as it was, with no
report. -/
theorem complex_argument_reported (sourceCode : SourceCode) (node : Loc) (st : State)
    (enclosing : Loc) (argument : Node)
    (htracked : isInTopLevelEffectFunction st.effectFunctions node = some enclosing)
    (harg : node.node.argument = some argument)
    (h1 : argument.type ≠ "ArrowFunctionExpression")
    (h2 : argument.type ≠ "FunctionExpression") :
    (ReturnStatement sourceCode node st).reports =
      st.reports ++
        [⟨(Loc.child Slot.argument argument node).id, "returnNotFunction",
          [⟨"replaceWithFunction", ⟨argument.range, "() => {};"⟩⟩]⟩] ∧
    (∀ (call : Loc) (st2 : State), call.node.arguments = [] →
      CallExpression call st2 = st2 ∧
      (call.type = "CallExpression" →
        dispatch sourceCode st2 (Event.enter call) = st2)) := by
  refine ⟨?_, ?_⟩
  · rw [ReturnStatement_nonFunction sourceCode node st enclosing argument htracked harg h1 h2]
    rfl
  · intro call st2 h0
    have hc : CallExpression call st2 = st2 := by
      apply CallExpression_skips
      rintro ⟨-, firstArg, hfirst, -⟩
      rw [h0] at hfirst
      exact Option.noConfusion hfirst
    refine ⟨hc, fun ht => ?_⟩
    simp only [dispatch, ht, if_true]
    exact hc

theorem complex_argument_reported_witness :
    isInTopLevelEffectFunction [biArrowLoc.id] biReturnLoc = some biArrowLoc ∧
    biReturnLoc.node.argument = some biSum ∧ biSum.type = "BinaryExpression" ∧
    ((ReturnStatement srcBinary biReturnLoc ⟨[biArrowLoc.id], []⟩).reports =
      [] ++
        [⟨(Loc.child Slot.argument biSum biReturnLoc).id, "returnNotFunction",
          [⟨"replaceWithFunction", ⟨biSum.range, "() => {};"⟩⟩]⟩] ∧
    (∀ (call : Loc) (st2 : State), call.node.arguments = [] →
      CallExpression call st2 = st2 ∧
      (call.type = "CallExpression" →
        dispatch srcBinary st2 (Event.enter call) = st2))) ∧
    lint srcNoArguments astNoArguments = [] :=
  ⟨rfl, rfl, rfl,
    complex_argument_reported srcBinary biReturnLoc ⟨[biArrowLoc.id], []⟩ biArrowLoc biSum
      rfl rfl (by decide) (by decide),
    by decide⟩

theorem mem_subtree_self : ∀ n : Node, n ∈ n.subtree
  | .mk _ _ _ _ _ _ _ => by simp [Node.subtree]

mutual
theorem walk_nodes : ∀ (n : Node) (here : Loc) (e : Event), e ∈ walk n here →
    ∀ y, OnPath e.loc y → OnPath here y ∨ y.node ∈ n.subtree
  | .mk _ _ _ callee arguments argument children, here, e, h => by
    intro y hy
    simp only [walk, List.mem_append, List.mem_singleton] at h
    simp only [Node.subtree, List.mem_cons, List.mem_append]
    rcases h with ((((h | h) | h) | h) | h) | h
    · subst h; exact Or.inl hy
    · rcases walkOpt_nodes callee _ here e h y hy with h2 | h2
      · exact Or.inl h2
      · exact Or.inr (Or.inr (Or.inl (Or.inl (Or.inl h2))))
    · rcases walkList_nodes arguments 0 _ here e h y hy with h2 | h2
      · exact Or.inl h2
      · exact Or.inr (Or.inr (Or.inl (Or.inl (Or.inr h2))))
    · rcases walkOpt_nodes argument _ here e h y hy with h2 | h2
      · exact Or.inl h2
      · exact Or.inr (Or.inr (Or.inl (Or.inr h2)))
    · rcases walkList_nodes children 0 _ here e h y hy with h2 | h2
      · exact Or.inl h2
      · exact Or.inr (Or.inr (Or.inr h2))
    · subst h; exact Or.inl hy
theorem walkOpt_nodes : ∀ (o : Option Node) (s : Slot) (p : Loc) (e : Event),
    e ∈ walkOpt o s p → ∀ y, OnPath e.loc y → OnPath p y ∨ y.node ∈ subtreeOpt o
  | none, _, _, _, h => by simp [walkOpt] at h
  | some n, s, p, e, h => by
    intro y hy
    simp only [walkOpt] at h
    simp only [subtreeOpt]
    rcases walk_nodes n (Loc.child s n p) e h y hy with h2 | h2
    · rcases h2 with h2 | h2
      · subst h2; exact Or.inr (mem_subtree_self n)
      · simp only [getAncestors, List.mem_cons] at h2
        exact Or.inl h2
    · exact Or.inr h2
theorem walkList_nodes : ∀ (l : List Node) (i : Nat) (f : Nat → Slot) (p : Loc) (e : Event),
    e ∈ walkList l i f p → ∀ y, OnPath e.loc y → OnPath p y ∨ y.node ∈ subtreeList l
  | [], _, _, _, _, h => by simp [walkList] at h
  | n :: ns, i, f, p, e, h => by
    intro y hy
    simp only [walkList, List.mem_append] at h
    simp only [subtreeList, List.mem_append]
    rcases h with h | h
    · rcases walk_nodes n (Loc.child (f i) n p) e h y hy with h2 | h2
      · rcases h2 with h2 | h2
        · subst h2; exact Or.inr (Or.inl (mem_subtree_self n))
        · simp only [getAncestors, List.mem_cons] at h2
          exact Or.inl h2
      · exact Or.inr (Or.inl h2)
    · rcases walkList_nodes ns (i + 1) f p e h y hy with h2 | h2
      · exact Or.inl h2
      · exact Or.inr (Or.inr h2)
end

/-- Every node object on the path of a visited node carries a node of the tree. -/
theorem traverse_nodes (root : Node) (e : Event) (h : e ∈ traverse root) (y : Loc)
    (hy : OnPath e.loc y) : y.node ∈ root.subtree := by
  rcases walk_nodes root (Loc.root root) e h y hy with h2 | h2
  · rcases h2 with h2 | h2
    · subst h2; exact mem_subtree_self root
    · simp [getAncestors] at h2
  · exact h2

theorem dispatch_reports_of_not_return (sourceCode : SourceCode) (st : State) (e : Event)
    (h : e.loc.type ≠ "ReturnStatement") :
    (dispatch sourceCode st e).reports = st.reports := by
  cases e with
  | enter l =>
    simp only [dispatch]
    split
    · exact CallExpression_reports l st
    · have h2 : ¬ l.type = "ReturnStatement" := h
      rw [if_neg h2]
  | exit l =>
    simp only [dispatch]
    split <;> rfl

theorem run_reports_of_no_return (sourceCode : SourceCode) :
    ∀ (events : List Event) (st : State),
      (∀ e ∈ events, e.loc.type ≠ "ReturnStatement") →
      (run sourceCode events st).reports = st.reports
  | [], _, _ => rfl
  | e :: es, st, h => by
    rw [show run sourceCode (e :: es) st = run sourceCode es (dispatch sourceCode st e) from rfl,
      run_reports_of_no_return sourceCode es _ (fun e2 he2 => h e2 (List.mem_cons_of_mem _ he2)),
      dispatch_reports_of_not_return sourceCode st e (h e (List.mem_cons_self _ _))]

/-- C19: a pass over a tree that has no `ReturnStatement` node reports nothing; so the
expression-bodied callback of `useEffect(() => 5)` is never reported. -/
theorem no_return_no_report (sourceCode : SourceCode) (root : Node)
    (h : ∀ n ∈ root.subtree, n.type ≠ "ReturnStatement") :
    lint sourceCode root = [] := by
  unfold lint
  rw [run_reports_of_no_return sourceCode (traverse root) State.init]
  · rfl
  · intro e he
    exact h e.loc.node (traverse_nodes root e he e.loc (Or.inl rfl))

theorem no_return_no_report_witness :
    (∀ n ∈ astImplicit.subtree, n.type ≠ "ReturnStatement") ∧
    astImplicit.subtree.map Node.type =
      ["Program", "ExpressionStatement", "CallExpression", "Identifier",
        "ArrowFunctionExpression", "Literal"] ∧
    lint srcImplicit astImplicit = [] :=
  ⟨by decide, by decide, no_return_no_report srcImplicit astImplicit (by decide)⟩

theorem getAncestorsLoop_eq : ∀ (l : Loc) (fuel : Nat) (ancestors : List Loc),
    l.id.length ≤ fuel →
    getAncestorsLoop fuel l.parent ancestors = some (ancestors ++ getAncestors l)
  | .root _, fuel, ancestors, _ => by
    cases fuel <;> simp [Loc.parent, getAncestorsLoop, getAncestors]
  | .child s n p, fuel, ancestors, h => by
    cases fuel with
    | zero => simp [Loc.id] at h
    | succ k =>
      rw [show (Loc.child s n p).parent = some p from rfl,
        show getAncestorsLoop (k + 1) (some p) ancestors =
          getAncestorsLoop k p.parent (ancestors ++ [p]) from rfl,
        getAncestorsLoop_eq p k _ (by simpa [Loc.id] using h)]
      simp [getAncestors]

theorem find_getAncestors_innermost (q : Loc → Bool) :
    ∀ (l a : Loc), (getAncestors l).find? q = some a →
      a ∈ getAncestors l ∧ q a = true ∧
      ∀ b ∈ getAncestors l, a ∈ getAncestors b → q b = false
  | .root _, a, h => by simp [getAncestors] at h
  | .child s n p, a, h => by
    simp only [getAncestors, List.find?_cons] at h
    simp only [getAncestors, List.mem_cons]
    cases hq : q p with
    | true =>
      rw [hq] at h
      cases h
      refine ⟨Or.inl rfl, hq, ?_⟩
      intro b hb hab
      exfalso
      have h1 := length_id_of_mem_getAncestors b p hab
      rcases hb with hb | hb
      · subst hb; exact Nat.lt_irrefl _ h1
      · exact Nat.lt_irrefl _ (Nat.lt_trans h1 (length_id_of_mem_getAncestors p b hb))
    | false =>
      rw [hq] at h
      obtain ⟨h1, h2, h3⟩ := find_getAncestors_innermost q p a h
      refine ⟨Or.inr h1, h2, ?_⟩
      intro b hb hab
      rcases hb with hb | hb
      · subst hb; exact hq
      · exact h3 b hb hab

theorem getAncestors_getLast : ∀ (l a : Loc), (getAncestors l).getLast? = some a →
    a.parent = none
  | .root _, a, h => by simp [getAncestors] at h
  | .child s n p, a, h => by
    cases p with
    | root m =>
      simp only [getAncestors, List.getLast?_singleton, Option.some.injEq] at h
      subst h
      rfl
    | child s2 n2 p2 =>
      apply getAncestors_getLast (Loc.child s2 n2 p2) a
      simpa [getAncestors, List.getLast?_cons_cons] using h

/-- C20: on a node object, whose parent chain is finite by construction, the loop of
`getAncestors` ends once the fuel covers the depth of the node, and returns the chain that
starts with the immediate parent, goes on with the parent's own chain and ends at the root
(the empty chain for a root); so the `find` of `isInTopLevelEffectFunction` returns an
ancestor exactly when its predicate accepts some ancestor, and then the innermost one that
it accepts. -/
theorem getAncestors_chain :
    (∀ (l : Loc) (fuel : Nat), l.id.length ≤ fuel →
      getAncestorsLoop fuel l.parent [] = some (getAncestors l)) ∧
    (∀ l : Loc, (getAncestors l).length = l.id.length) ∧
    (∀ l : Loc, l.parent = none → getAncestors l = []) ∧
    (∀ l p : Loc, l.parent = some p → getAncestors l = p :: getAncestors p) ∧
    (∀ l a : Loc, (getAncestors l).getLast? = some a → a.parent = none) ∧
    (∀ (effectFunctions : List NodeId) (l a : Loc),
      isInTopLevelEffectFunction effectFunctions l = some a →
      a ∈ getAncestors l ∧ isTrackedFunction effectFunctions a = true ∧
      ∀ b ∈ getAncestors l, a ∈ getAncestors b →
        isTrackedFunction effectFunctions b = false) ∧
    (∀ (effectFunctions : List NodeId) (l : Loc),
      (∃ a, isInTopLevelEffectFunction effectFunctions l = some a) ↔
        ∃ b ∈ getAncestors l, isTrackedFunction effectFunctions b = true) ∧
    (∀ (effectFunctions : List NodeId) (l : Loc),
      isInTopLevelEffectFunction effectFunctions l = none ↔
        ∀ b ∈ getAncestors l, isTrackedFunction effectFunctions b = false) ∧
    (getAncestors neReturnLoc).map Loc.type =
      ["BlockStatement", "ArrowFunctionExpression", "CallExpression", "ExpressionStatement",
        "BlockStatement", "ArrowFunctionExpression", "CallExpression", "ExpressionStatement",
        "Program"] ∧
    (getAncestorsLoop 9 neReturnLoc.parent []).map (List.map Loc.type) =
      some ((getAncestors neReturnLoc).map Loc.type) ∧
    (getAncestorsLoop 8 neReturnLoc.parent []).map (List.map Loc.type) = none ∧
    (isInTopLevelEffectFunction [neArrowLoc.id, neInnerArrowLoc.id] neReturnLoc).map Loc.id =
      some neInnerArrowLoc.id ∧
    (isInTopLevelEffectFunction [neArrowLoc.id] neReturnLoc).map Loc.id =
      some neArrowLoc.id ∧
    (isInTopLevelEffectFunction [] neReturnLoc).map Loc.id = none := by
  refine ⟨?_, ?_, ?_, ?_, getAncestors_getLast, ?_, ?_, ?_, by decide, by decide, by decide,
    by decide, by decide, by decide⟩
  · intro l fuel h
    rw [getAncestorsLoop_eq l fuel [] h, List.nil_append]
  · intro l
    induction l with
    | root n => rfl
    | child s n p ih => simp [getAncestors, Loc.id, ih]
  · intro l h
    cases l with
    | root n => rfl
    | child s n p => exact Option.noConfusion h
  · intro l p h
    cases l with
    | root n => exact Option.noConfusion h
    | child s n p2 =>
      cases h
      rfl
  · intro effectFunctions l a h
    exact find_getAncestors_innermost (isTrackedFunction effectFunctions) l a h
  · intro effectFunctions l
    rw [show isInTopLevelEffectFunction effectFunctions l =
      (getAncestors l).find? (isTrackedFunction effectFunctions) from rfl,
      ← Option.isSome_iff_exists, List.find?_isSome]
  · intro effectFunctions l
    rw [show isInTopLevelEffectFunction effectFunctions l =
      (getAncestors l).find? (isTrackedFunction effectFunctions) from rfl,
      List.find?_eq_none]
    simp only [Bool.not_eq_true]

theorem reports_share_messages_witness :
    (⟨rnReturnLoc.id, "returnNotFunction",
        [⟨"replaceWithFunction", ⟨(18, 25), "return () => {};"⟩⟩]⟩ : Report) ∈
      lint srcReturnNothing astReturnNothing ∧
    ((⟨rnReturnLoc.id, "returnNotFunction",
        [⟨"replaceWithFunction", ⟨(18, 25), "return () => {};"⟩⟩]⟩ : Report).messageId =
        "returnNotFunction" ∧
      (⟨rnReturnLoc.id, "returnNotFunction",
        [⟨"replaceWithFunction", ⟨(18, 25), "return () => {};"⟩⟩]⟩ : Report).suggest.length =
        1 ∧
      ∃ node fix,
        (⟨rnReturnLoc.id, "returnNotFunction",
          [⟨"replaceWithFunction", ⟨(18, 25), "return () => {};"⟩⟩]⟩ : Report) =
          ⟨node, "returnNotFunction", [⟨"replaceWithFunction", fix⟩]⟩) :=
  ⟨by decide, reports_share_messages srcReturnNothing astReturnNothing _ (by decide)⟩

/-! ## The traversal: exactly what is tracked at every event -/

theorem atEvent_append (Q : State → Event → Prop) (sourceCode : SourceCode) :
    ∀ (xs ys : List Event) (st : State),
      AtEvent Q sourceCode xs st → AtEvent Q sourceCode ys (run sourceCode xs st) →
      AtEvent Q sourceCode (xs ++ ys) st
  | [], _, _, _, h => h
  | e :: xs, ys, st, h1, h2 =>
    ⟨h1.1, atEvent_append Q sourceCode xs ys (dispatch sourceCode st e) h1.2 h2⟩

theorem atEvent_split (Q : State → Event → Prop) (sourceCode : SourceCode) :
    ∀ (before : List Event) (e : Event) (after : List Event) (st : State),
      AtEvent Q sourceCode (before ++ e :: after) st → Q (run sourceCode before st) e
  | [], _, _, _, h => h.1
  | d :: before, e, after, st, h =>
    atEvent_split Q sourceCode before e after (dispatch sourceCode st d) h.2

theorem onPath_child (x y : Loc) (s : Slot) (n : Node) (h : OnPath x y) :
    OnPath (Loc.child s n x) y := by
  right
  simp only [getAncestors, List.mem_cons]
  exact h

theorem near_child (x a : Loc) (s : Slot) (n : Node) (h : Near x a) :
    Near (Loc.child s n x) a := by
  rcases h with h | ⟨k, p, hp, h⟩
  · exact Or.inl (onPath_child x a s n h)
  · exact Or.inr ⟨k, p, hp, onPath_child x _ s n h⟩

theorem tracksOnly_child (st st0 : State) (x : Loc) (s : Slot) (n : Node)
    (h0 : TracksOnly st0 x)
    (hsub : ∀ id ∈ st.effectFunctions, id ∈ st0.effectFunctions) :
    TracksOnly st (Loc.child s n x) := by
  intro id hid
  obtain ⟨a, ha, hai, hn⟩ := h0 id (hsub id hid)
  exact ⟨a, ha, hai, near_child x a s n hn⟩

theorem CallExpression_adds_only (node : Loc) (st : State) (id : NodeId)
    (h : id ∈ (CallExpression node st).effectFunctions) :
    id ∈ st.effectFunctions ∨
      (HasEffectCallee node.node ∧
        (∃ firstArg, node.node.arguments.head? = some firstArg ∧
          IsFunctionLiteral firstArg.type) ∧
        id = Slot.arguments 0 :: node.id) := by
  by_cases hreg : HasEffectCallee node.node ∧
      ∃ firstArg, node.node.arguments.head? = some firstArg ∧ IsFunctionLiteral firstArg.type
  · obtain ⟨hc, firstArg, harg, hlit⟩ := hreg
    rw [CallExpression_registers node st firstArg hc harg hlit] at h
    rcases (mem_setAdd _ _ _).1 h with h | h
    · exact Or.inl h
    · exact Or.inr ⟨hc, ⟨firstArg, harg, hlit⟩, h⟩
  · rw [CallExpression_skips node st hreg] at h
    exact Or.inl h

theorem dispatch_enter_adds_only (sourceCode : SourceCode) (st : State) (l : Loc) (id : NodeId)
    (h : id ∈ (dispatch sourceCode st (Event.enter l)).effectFunctions) :
    id ∈ st.effectFunctions ∨ (Registers l ∧ id = Slot.arguments 0 :: l.id) := by
  simp only [dispatch] at h
  split at h
  · rename_i hty
    rcases CallExpression_adds_only l st id h with h | ⟨hc, hf, hid⟩
    · exact Or.inl h
    · exact Or.inr ⟨⟨hty, hc, hf⟩, hid⟩
  · split at h
    · rw [ReturnStatement_effectFunctions] at h
      exact Or.inl h
    · exact Or.inl h

theorem isFunctionType_iff (t : String) :
    isFunctionType t = true ↔
      (t = "FunctionExpression" ∨ t = "FunctionDeclaration" ∨ t = "ArrowFunctionExpression") := by
  simp only [isFunctionType, Bool.or_eq_true, beq_iff_eq]
  constructor
  · rintro ((h | h) | h)
    · exact Or.inl h
    · exact Or.inr (Or.inr h)
    · exact Or.inr (Or.inl h)
  · rintro (h | h | h)
    · exact Or.inl (Or.inl h)
    · exact Or.inr h
    · exact Or.inl (Or.inr h)

theorem dispatch_exit_removes (sourceCode : SourceCode) (st : State) (l : Loc) (id : NodeId)
    (h : id ∈ (dispatch sourceCode st (Event.exit l)).effectFunctions) :
    id ∈ st.effectFunctions ∧ (isFunctionType l.type = true → id ≠ l.id) := by
  simp only [dispatch] at h
  split at h
  · have h2 := (mem_setDelete _ _ _).1 h
    exact ⟨h2.1, fun _ => h2.2⟩
  · rename_i hty
    exact ⟨h, fun hf => absurd ((isFunctionType_iff _).1 hf) hty⟩

theorem isFunctionType_of_literal (t : String) (h : IsFunctionLiteral t) :
    isFunctionType t = true := by
  rcases h with h | h <;> simp [isFunctionType, h]

theorem run_singleton (sourceCode : SourceCode) (e : Event) (st : State) :
    run sourceCode [e] st = dispatch sourceCode st e := rfl

mutual
theorem walk_tracked (sourceCode : SourceCode) : ∀ (n : Node) (here : Loc) (st : State),
    here.node = n → TracksAncestors st here → TracksOnly st here →
    AtEvent TrackedAt sourceCode (walk n here) st ∧
    ∀ id ∈ (run sourceCode (walk n here) st).effectFunctions,
      id ∈ st.effectFunctions ∧ (isFunctionType here.type = true → id ≠ here.id)
  | .mk type name range callee arguments argument children, here, st, hn, htr, hso => by
    have hlenOpt : ∀ (o : Option Node) (s : Slot), ∀ e ∈ walkOpt o s here,
        here.id.length < e.loc.id.length := fun o s e he =>
      length_lt_of_cons_suffix _ _ _ (walkOpt_ids o s here e he)
    have hlenList : ∀ (l : List Node) (f : Nat → Slot), ∀ e ∈ walkList l 0 f here,
        here.id.length < e.loc.id.length := fun l f e he => by
      obtain ⟨j, -, hj⟩ := walkList_ids l 0 f here e he
      exact length_lt_of_cons_suffix _ _ _ hj
    have hargs : Registers here →
        ∃ n rest, arguments = n :: rest ∧ IsFunctionLiteral n.type := by
      rintro ⟨-, -, firstArg, hfirst, hlit⟩
      rw [hn] at hfirst
      cases harguments : arguments with
      | nil => simp [Node.arguments, harguments] at hfirst
      | cons a rest =>
        simp only [Node.arguments, harguments, List.head?_cons, Option.some.injEq] at hfirst
        subst hfirst
        exact ⟨_, _, rfl, hlit⟩
    -- entering the node
    obtain ⟨S1, hS1⟩ : ∃ S, S = dispatch sourceCode st (Event.enter here) := ⟨_, rfl⟩
    have F1 : ∀ id ∈ S1.effectFunctions,
        id ∈ st.effectFunctions ∨ (Registers here ∧ id = Slot.arguments 0 :: here.id) := by
      subst hS1
      exact fun id hid => dispatch_enter_adds_only sourceCode st here id hid
    have T1 : TracksAncestors S1 here := by
      subst hS1
      exact fun a ha hreg => dispatch_enter_mono sourceCode st here a.id (htr a ha hreg)
    have R1 : Registers here → (Slot.arguments 0 :: here.id) ∈ S1.effectFunctions := by
      subst hS1
      exact dispatch_registers sourceCode st here
    -- the callee
    have hA := walkOpt_tracked sourceCode callee Slot.callee here S1 T1
      (fun h => Slot.noConfusion h)
      (fun n id hid => by
        rcases F1 id hid with h | ⟨hreg, hid2⟩
        · obtain ⟨a, ha, hai, hnear⟩ := hso id h
          exact ⟨a, ha, hai, near_child here a _ n hnear⟩
        · exact ⟨Loc.child (Slot.arguments 0) n here, ⟨rfl, hreg⟩, hid2.symm,
            Or.inr ⟨n, here, rfl, Or.inl rfl⟩⟩)
    obtain ⟨S2, hS2⟩ : ∃ S, S = run sourceCode (walkOpt callee Slot.callee here) S1 :=
      ⟨_, rfl⟩
    have F2 : ∀ id ∈ S2.effectFunctions, id ∈ S1.effectFunctions := by
      subst hS2
      exact hA.2
    have T2 : TracksAncestors S2 here := by
      subst hS2
      exact tracksAncestors_run sourceCode _ S1 here T1 (hlenOpt _ _)
    have R2 : Registers here → (Slot.arguments 0 :: here.id) ∈ S2.effectFunctions := by
      intro hreg
      subst hS2
      apply run_keeps sourceCode _ _ _ (R1 hreg)
      intro e he heq
      have hs := walkOpt_ids callee Slot.callee here e he
      rw [heq] at hs
      exact Slot.noConfusion (eq_of_cons_suffix_cons _ _ _ hs)
    -- the arguments
    have hB := walkList_tracked sourceCode arguments 0 Slot.arguments here S2 st
      (fun i j h => Slot.arguments.inj h) T2
      (fun j _ hj hreg => by rw [hj]; exact R2 hreg) hso
      (fun id hid => by
        rcases F1 id (F2 id hid) with h | ⟨hreg, hid2⟩
        · exact Or.inl h
        · exact Or.inr ⟨hreg, hid2, rfl, hargs hreg⟩)
    obtain ⟨S3, hS3⟩ :
        ∃ S, S = run sourceCode (walkList arguments 0 Slot.arguments here) S2 := ⟨_, rfl⟩
    have F3 : ∀ id ∈ S3.effectFunctions, id ∈ st.effectFunctions := by
      subst hS3
      exact hB.2
    have T3 : TracksAncestors S3 here := by
      subst hS3
      exact tracksAncestors_run sourceCode _ S2 here T2 (hlenList _ _)
    -- the argument
    have hC := walkOpt_tracked sourceCode argument Slot.argument here S3 T3
      (fun h => Slot.noConfusion h)
      (fun n => tracksOnly_child S3 st here _ n hso F3)
    obtain ⟨S4, hS4⟩ : ∃ S, S = run sourceCode (walkOpt argument Slot.argument here) S3 :=
      ⟨_, rfl⟩
    have F4 : ∀ id ∈ S4.effectFunctions, id ∈ st.effectFunctions := by
      subst hS4
      exact fun id hid => F3 id (hC.2 id hid)
    have T4 : TracksAncestors S4 here := by
      subst hS4
      exact tracksAncestors_run sourceCode _ S3 here T3 (hlenOpt _ _)
    -- the other children
    have hD := walkList_tracked sourceCode children 0 Slot.child here S4 st
      (fun i j h => Slot.child.inj h) T4 (fun j _ h _ => Slot.noConfusion h) hso
      (fun id hid => Or.inl (F4 id hid))
    obtain ⟨S5, hS5⟩ : ∃ S, S = run sourceCode (walkList children 0 Slot.child here) S4 :=
      ⟨_, rfl⟩
    have F5 : ∀ id ∈ S5.effectFunctions, id ∈ st.effectFunctions := by
      subst hS5
      exact hD.2
    have T5 : TracksAncestors S5 here := by
      subst hS5
      exact tracksAncestors_run sourceCode _ S4 here T4 (hlenList _ _)
    have hE : TrackedAt S5 (Event.exit here) := by
      refine ⟨T5, ?_⟩
      intro id hid
      exact hso id (F5 id hid)
    have hrun : run sourceCode
        (walk (Node.mk type name range callee arguments argument children) here) st =
        dispatch sourceCode S5 (Event.exit here) := by
      subst hS5 hS4 hS3 hS2 hS1
      simp only [walk, run_append, run_singleton]
    refine ⟨?_, ?_⟩
    · simp only [walk]
      refine atEvent_append _ _ _ _ _
        (atEvent_append _ _ _ _ _
          (atEvent_append _ _ _ _ _
            (atEvent_append _ _ _ _ _
              (atEvent_append _ _ _ _ _ ⟨⟨htr, hso⟩, trivial⟩ ?_) ?_) ?_) ?_) ?_
      · subst hS1
        exact hA.1
      · subst hS2 hS1
        simpa only [run_append, run_singleton] using hB.1
      · subst hS3 hS2 hS1
        simpa only [run_append, run_singleton] using hC.1
      · subst hS4 hS3 hS2 hS1
        simpa only [run_append, run_singleton] using hD.1
      · subst hS5 hS4 hS3 hS2 hS1
        simp only [run_append, run_singleton]
        exact ⟨hE, trivial⟩
    · intro id hid
      rw [hrun] at hid
      obtain ⟨h5, hne⟩ := dispatch_exit_removes sourceCode S5 here id hid
      exact ⟨F5 id h5, hne⟩
theorem walkOpt_tracked (sourceCode : SourceCode) : ∀ (o : Option Node) (s : Slot) (p : Loc)
    (st : State), TracksAncestors st p →
    (s = Slot.arguments 0 → Registers p → (s :: p.id) ∈ st.effectFunctions) →
    (∀ n, TracksOnly st (Loc.child s n p)) →
    AtEvent TrackedAt sourceCode (walkOpt o s p) st ∧
    ∀ id ∈ (run sourceCode (walkOpt o s p) st).effectFunctions, id ∈ st.effectFunctions
  | none, _, _, _, _, _, _ => ⟨trivial, fun _ h => h⟩
  | some n, s, p, st, htr, hs, hso => by
    simp only [walkOpt]
    have h := walk_tracked sourceCode n (Loc.child s n p) st rfl
      (tracksAncestors_child st s n p htr hs) (hso n)
    exact ⟨h.1, fun id hid => (h.2 id hid).1⟩
theorem walkList_tracked (sourceCode : SourceCode) : ∀ (l : List Node) (i : Nat)
    (f : Nat → Slot) (p : Loc) (st st0 : State), Function.Injective f →
    TracksAncestors st p →
    (∀ j, i ≤ j → f j = Slot.arguments 0 → Registers p →
      (f j :: p.id) ∈ st.effectFunctions) →
    TracksOnly st0 p →
    (∀ id ∈ st.effectFunctions, id ∈ st0.effectFunctions ∨
      (Registers p ∧ id = Slot.arguments 0 :: p.id ∧ f i = Slot.arguments 0 ∧
        ∃ n rest, l = n :: rest ∧ IsFunctionLiteral n.type)) →
    AtEvent TrackedAt sourceCode (walkList l i f p) st ∧
    ∀ id ∈ (run sourceCode (walkList l i f p) st).effectFunctions, id ∈ st0.effectFunctions
  | [], _, _, _, _, _, _, _, _, _, hsub => by
    refine ⟨trivial, ?_⟩
    intro id hid
    rcases hsub id hid with h | ⟨-, -, -, n, rest, hl, -⟩
    · exact h
    · exact List.noConfusion hl
  | n :: ns, i, f, p, st, st0, hf, htr, hK, hso, hsub => by
    simp only [walkList]
    have hchild : TracksOnly st (Loc.child (f i) n p) := by
      intro id hid
      rcases hsub id hid with h | ⟨hreg, hid2, hfi, -⟩
      · obtain ⟨a, ha, hai, hnear⟩ := hso id h
        exact ⟨a, ha, hai, near_child p a _ n hnear⟩
      · refine ⟨Loc.child (f i) n p, ⟨hfi, hreg⟩, ?_, Or.inl (Or.inl rfl)⟩
        rw [hid2, ← hfi]
        rfl
    have h1 := walk_tracked sourceCode n (Loc.child (f i) n p) st rfl
      (tracksAncestors_child st (f i) n p htr (hK i (Nat.le_refl _))) hchild
    have h2 := walkList_tracked sourceCode ns (i + 1) f p
      (run sourceCode (walk n (Loc.child (f i) n p)) st) st0 hf
      (by
        apply tracksAncestors_run sourceCode _ st p htr
        intro e he
        exact length_lt_of_cons_suffix _ _ _ (walk_ids n _ e he))
      (by
        intro j hj hfj hreg
        apply run_keeps sourceCode _ _ st (hK j (Nat.le_of_succ_le hj) hfj hreg)
        intro e he heq
        have hsuf := walk_ids n (Loc.child (f i) n p) e he
        rw [heq] at hsuf
        have := hf (eq_of_cons_suffix_cons _ _ _ hsuf)
        omega)
      hso
      (by
        intro id hid
        obtain ⟨hin, hne⟩ := h1.2 id hid
        rcases hsub id hin with h | ⟨-, hid2, hfi, m, rest, hl, hlit⟩
        · exact Or.inl h
        · exfalso
          have hm : m = n := (List.cons.inj hl).1.symm
          subst hm
          apply hne (isFunctionType_of_literal _ hlit)
          rw [hid2, ← hfi]
          rfl)
    refine ⟨atEvent_append _ _ _ _ _ h1.1 h2.1, ?_⟩
    intro id hid
    rw [run_append] at hid
    exact h2.2 id hid
end

theorem tracksAncestors_init (root : Node) : TracksAncestors State.init (Loc.root root) := by
  intro a ha hreg
  rcases ha with ha | ha
  · subst ha; exact hreg.elim
  · simp [getAncestors] at ha

theorem tracksOnly_init (x : Loc) : TracksOnly State.init x := by
  intro id hid
  simp [State.init] at hid

theorem traverse_trackedAt (sourceCode : SourceCode) (root : Node)
    (before after : List Event) (e : Event) (h : traverse root = before ++ e :: after) :
    TrackedAt (run sourceCode before State.init) e := by
  have h1 := (walk_tracked sourceCode root (Loc.root root) State.init rfl
    (tracksAncestors_init root) (tracksOnly_init _)).1
  rw [show walk root (Loc.root root) = traverse root from rfl, h] at h1
  exact atEvent_split _ _ _ _ _ _ h1

/-- C17: after a complete pass that started with the empty set the set is empty again; a
member leaves the set only through the exit event of the node with that identity. -/
theorem tracked_set_empty_after_pass (sourceCode : SourceCode) (root : Node) :
    (run sourceCode (traverse root) State.init).effectFunctions = [] ∧
    (∀ (st : State) (e : Event) (id : NodeId), id ∈ st.effectFunctions →
      id ∉ (dispatch sourceCode st e).effectFunctions →
      ∃ l, e = Event.exit l ∧ l.id = id) := by
  refine ⟨?_, ?_⟩
  · have h := (walk_tracked sourceCode root (Loc.root root) State.init rfl
      (tracksAncestors_init root) (tracksOnly_init _)).2
    rw [List.eq_nil_iff_forall_not_mem]
    intro id hid
    have h2 := (h id hid).1
    simp [State.init] at h2
  · intro st e id hin hout
    cases e with
    | enter l => exact absurd (dispatch_enter_mono sourceCode st l id hin) hout
    | exit l =>
      refine ⟨l, rfl, ?_⟩
      by_contra hne
      exact hout (dispatch_keeps sourceCode st (Event.exit l) id hin hne)

theorem length_id_le_of_onPath (x y : Loc) (h : OnPath x y) : y.id.length ≤ x.id.length := by
  rcases h with h | h
  · subst h; exact Nat.le_refl _
  · exact Nat.le_of_lt (length_id_of_mem_getAncestors x y h)

theorem onPath_unique : ∀ (x a b : Loc), OnPath x a → OnPath x b →
    a.id.length = b.id.length → a = b
  | .root _, a, b, ha, hb, _ => by
    rcases ha with ha | ha
    · rcases hb with hb | hb
      · rw [ha, hb]
      · simp [getAncestors] at hb
    · simp [getAncestors] at ha
  | .child s n p, a, b, ha, hb, hlen => by
    have hpa : ∀ c, c ∈ getAncestors (Loc.child s n p) → OnPath p c := by
      intro c hc
      simp only [getAncestors, List.mem_cons] at hc
      exact hc
    have hlt : ∀ c, OnPath p c → c.id.length < (Loc.child s n p).id.length := by
      intro c hc
      have := length_id_le_of_onPath p c hc
      simp only [Loc.id, List.length_cons]
      omega
    rcases ha with ha | ha
    · rcases hb with hb | hb
      · rw [ha, hb]
      · have := hlt b (hpa b hb)
        rw [← hlen, ha] at this
        exact absurd this (Nat.lt_irrefl _)
    · rcases hb with hb | hb
      · have := hlt a (hpa a ha)
        rw [hlen, hb] at this
        exact absurd this (Nat.lt_irrefl _)
      · exact onPath_unique p a b (hpa a ha) (hpa b hb) hlen

theorem linked_of_onPath (x a : Loc) (hx : x.Linked) (h : OnPath x a) : a.Linked := by
  rcases h with h | h
  · subst h; exact hx
  · exact linked_of_mem_getAncestors x a hx h

/-- On a linked chain the nodes the handler would register are the effect callbacks. -/
theorem registered_iff_isEffectCallback (a : Loc) (ha : a.Linked) :
    Registered a ↔ isEffectCallback a = true := by
  cases a with
  | root n => simp [Registered, isEffectCallback]
  | child s f call =>
    have hlink : call.node.childAt s = some f := ha.1
    constructor
    · rintro ⟨hs, hty, hcallee, firstArg, hfirst, hlit⟩
      subst hs
      have hf : firstArg = f := by
        simp only [Node.childAt] at hlink
        cases hargs : call.node.arguments with
        | nil => simp [hargs] at hfirst
        | cons x rest =>
          simp only [hargs, List.head?_cons, Option.some.injEq] at hfirst
          simp only [hargs, List.get?_cons_zero, Option.some.injEq] at hlink
          rw [← hfirst, hlink]
      subst hf
      have h1 : isEffectCall call.node = true := (isEffectCall_eq_true_iff _).2 hcallee
      simp only [isEffectCallback, hty, h1, beq_self_eq_true, Bool.and_true]
      rcases hlit with h | h <;> simp [h]
    · intro h
      cases s with
      | arguments i =>
        cases i with
        | zero =>
          simp only [isEffectCallback, Bool.and_eq_true, Bool.or_eq_true, beq_iff_eq] at h
          obtain ⟨⟨hlit, hty⟩, hcall⟩ := h
          refine ⟨rfl, hty, (isEffectCall_eq_true_iff _).1 hcall, f, ?_, hlit⟩
          simp only [Node.childAt] at hlink
          rw [← hlink]
          cases call.node.arguments <;> rfl
        | succ k => simp [isEffectCallback] at h
      | callee => simp [isEffectCallback] at h
      | argument => simp [isEffectCallback] at h
      | child i => simp [isEffectCallback] at h

theorem tracked_onPath_iff (st : State) (x b : Loc) (htr : TracksAncestors st x)
    (hso : TracksOnly st x) (hb : OnPath x b) :
    b.id ∈ st.effectFunctions ↔ Registered b := by
  constructor
  · intro hmem
    obtain ⟨a, ha, hai, hnear⟩ := hso b.id hmem
    rcases hnear with hnear | ⟨k, p, hp, hq⟩
    · have := onPath_unique x a b hnear hb (by rw [hai])
      rw [← this]
      exact ha
    · exfalso
      cases a with
      | root n => exact ha.elim
      | child s f call =>
        obtain ⟨hs, -⟩ := ha
        cases hp
        have hlen : b.id.length = (Loc.child Slot.callee k p).id.length := by
          rw [← hai]
          rfl
        have hbq := onPath_unique x b _ hb hq hlen
        rw [hbq, hs] at hai
        exact Slot.noConfusion (List.cons.inj hai).1
  · exact fun hreg => htr b hb hreg

theorem literal_of_isEffectCallback (b : Loc) (h : isEffectCallback b = true) :
    IsFunctionLiteral b.type := by
  cases b with
  | root n => simp [isEffectCallback] at h
  | child s f call =>
    cases s with
    | arguments i =>
      cases i with
      | zero =>
        simp only [isEffectCallback, Bool.and_eq_true, Bool.or_eq_true, beq_iff_eq] at h
        exact h.1.1
      | succ k => simp [isEffectCallback] at h
    | callee => simp [isEffectCallback] at h
    | argument => simp [isEffectCallback] at h
    | child i => simp [isEffectCallback] at h

theorem isTrackedFunction_iff (st : State) (x b : Loc) (hx : x.Linked)
    (htr : TracksAncestors st x) (hso : TracksOnly st x) (hb : b ∈ getAncestors x) :
    isTrackedFunction st.effectFunctions b = true ↔ isEffectCallback b = true := by
  have hbl : b.Linked := linked_of_mem_getAncestors x b hx hb
  have hiff := tracked_onPath_iff st x b htr hso (Or.inr hb)
  simp only [isTrackedFunction, setHas, Bool.and_eq_true, Bool.or_eq_true, beq_iff_eq,
    decide_eq_true_eq]
  constructor
  · rintro ⟨-, hmem⟩
    exact (registered_iff_isEffectCallback b hbl).1 (hiff.1 hmem)
  · intro h
    refine ⟨?_, hiff.2 ((registered_iff_isEffectCallback b hbl).2 h)⟩
    rcases literal_of_isEffectCallback b h with h1 | h1
    · exact Or.inr h1
    · exact Or.inl h1

theorem isInTopLevelEffectFunction_isSome (st : State) (x : Loc) (hx : x.Linked)
    (htr : TracksAncestors st x) (hso : TracksOnly st x) :
    (isInTopLevelEffectFunction st.effectFunctions x).isSome =
      (getAncestors x).any isEffectCallback := by
  rw [Bool.eq_iff_iff, show isInTopLevelEffectFunction st.effectFunctions x =
    (getAncestors x).find? (isTrackedFunction st.effectFunctions) from rfl,
    List.find?_isSome, List.any_eq_true]
  constructor
  · rintro ⟨b, hb, h⟩
    exact ⟨b, hb, (isTrackedFunction_iff st x b hx htr hso hb).1 h⟩
  · rintro ⟨b, hb, h⟩
    exact ⟨b, hb, (isTrackedFunction_iff st x b hx htr hso hb).2 h⟩

theorem ReturnStatement_reports_stateless (sourceCode : SourceCode) (st : State) (x : Loc)
    (hty : x.type = "ReturnStatement")
    (h : (isInTopLevelEffectFunction st.effectFunctions x).isSome =
      (getAncestors x).any isEffectCallback) :
    (ReturnStatement sourceCode x st).reports = st.reports ++ statelessReturn sourceCode x := by
  cases hfind : isInTopLevelEffectFunction st.effectFunctions x with
  | none =>
    rw [hfind] at h
    have hany : (getAncestors x).any isEffectCallback = false := by
      rw [← h]; rfl
    rw [ReturnStatement_untracked sourceCode x st hfind]
    simp [statelessReturn, hany]
  | some enclosing =>
    rw [hfind] at h
    have hany : (getAncestors x).any isEffectCallback = true := by
      rw [← h]; rfl
    cases harg : x.node.argument with
    | none =>
      rw [ReturnStatement_noValue sourceCode x st enclosing hfind harg]
      simp [statelessReturn, hany, hty, harg, State.report]
    | some argument =>
      by_cases hlit : IsFunctionLiteral argument.type
      · rw [ReturnStatement_function sourceCode x st argument harg hlit]
        have : ¬ (argument.type ≠ "ArrowFunctionExpression" ∧
            argument.type ≠ "FunctionExpression") := by
          rintro ⟨h1, h2⟩
          rcases hlit with h3 | h3
          · exact h1 h3
          · exact h2 h3
        simp [statelessReturn, hany, hty, harg, this]
      · have h1 : argument.type ≠ "ArrowFunctionExpression" := fun e => hlit (Or.inl e)
        have h2 : argument.type ≠ "FunctionExpression" := fun e => hlit (Or.inr e)
        rw [ReturnStatement_nonFunction sourceCode x st enclosing argument hfind harg h1 h2]
        simp [statelessReturn, hany, hty, harg, h1, h2, State.report, Loc.id]

theorem dispatch_reports_stateless (sourceCode : SourceCode) (st : State) (e : Event)
    (hl : e.loc.Linked) (ht : TrackedAt st e) :
    (dispatch sourceCode st e).reports = st.reports ++ statelessEvent sourceCode e := by
  cases e with
  | exit l =>
    simp only [dispatch, statelessEvent, List.append_nil]
    split <;> rfl
  | enter l =>
    simp only [statelessEvent]
    by_cases hty : l.type = "ReturnStatement"
    · rw [dispatch_enter_return sourceCode st l hty]
      exact ReturnStatement_reports_stateless sourceCode st l hty
        (isInTopLevelEffectFunction_isSome st l hl ht.1 ht.2)
    · rw [dispatch_reports_of_not_return sourceCode st (Event.enter l) hty]
      simp [statelessReturn, hty]

theorem run_reports_flatMap (sourceCode : SourceCode) (g : Event → List Report) :
    ∀ (events : List Event) (st : State),
      (∀ before e after, events = before ++ e :: after →
        (dispatch sourceCode (run sourceCode before st) e).reports =
          (run sourceCode before st).reports ++ g e) →
      (run sourceCode events st).reports = st.reports ++ events.flatMap g
  | [], st, _ => by simp [run]
  | e :: es, st, h => by
    have h1 := h [] e es rfl
    have h2 := run_reports_flatMap sourceCode g es (dispatch sourceCode st e)
      (fun before d after hsplit => h (e :: before) d after (by rw [hsplit]; rfl))
    rw [show run sourceCode (e :: es) st = run sourceCode es (dispatch sourceCode st e) from rfl,
      h2, show run sourceCode [] st = st from rfl] at *
    rw [h1, List.flatMap_cons, List.append_assoc]

theorem lint_stateless (sourceCode : SourceCode) (root : Node) :
    lint sourceCode root = (traverse root).flatMap (statelessEvent sourceCode) := by
  unfold lint
  rw [run_reports_flatMap sourceCode (statelessEvent sourceCode) (traverse root) State.init]
  · rfl
  · intro before e after hsplit
    exact dispatch_reports_stateless sourceCode _ e
      (traverse_linked root e (by rw [hsplit]; simp))
      (traverse_trackedAt sourceCode root before after e hsplit)

/-- C16: the reports of a pass from the empty set are those found without any state, by
taking the `ReturnStatement` nodes in document order and looking, for each, for some
ancestor at any depth that is a function literal and `arguments[0]` of a `useEffect` or
`useLayoutEffect` call: the statement is reported when it has no argument, the argument
when its type is neither of the two function-literal types. -/
theorem lint_eq_statelessReports (sourceCode : SourceCode) (root : Node) :
    lint sourceCode root = statelessReports sourceCode root :=
  lint_stateless sourceCode root

theorem exists_child_onPath : ∀ (x q : Loc), q ∈ getAncestors x →
    ∃ s n, OnPath x (Loc.child s n q)
  | .root _, _, h => by simp [getAncestors] at h
  | .child s n p, q, h => by
    simp only [getAncestors, List.mem_cons] at h
    rcases h with h | h
    · subst h
      exact ⟨s, n, Or.inl rfl⟩
    · obtain ⟨s2, n2, h2⟩ := exists_child_onPath p q h
      exact ⟨s2, n2, onPath_child p _ s n h2⟩

theorem childAt_of_hasNoChildren (n : Node) (s : Slot) (h : n.hasNoChildren = true) :
    n.childAt s = none := by
  simp only [Node.hasNoChildren, Bool.and_eq_true, Option.isNone_iff_eq_none,
    List.isEmpty_iff] at h
  obtain ⟨⟨⟨h1, h2⟩, h3⟩, h4⟩ := h
  cases s <;> simp [Node.childAt, h1, h2, h3, h4]

theorem not_handlerEvent_of_identifier (e : Event) (h : e.loc.type = "Identifier") :
    ¬ HandlerEvent e := by
  cases e with
  | enter l =>
    have h2 : l.type = "Identifier" := h
    simp only [HandlerEvent, h2]
    decide
  | exit l =>
    have h2 : l.type = "Identifier" := h
    simp only [HandlerEvent, h2]
    decide

/-- C11: in a pass from the empty set over a tree whose `Identifier` nodes have no child
nodes, whenever a handler is invoked (on entering a `CallExpression` or a `ReturnStatement`,
on leaving a function node), the members of the tracked set are exactly the function
literals that are the first argument of an effect call and that contain the visited node
(or are it); nothing else is a member. -/
theorem tracked_iff_inside (sourceCode : SourceCode) (root : Node)
    (hleaf : ∀ n ∈ root.subtree, n.type = "Identifier" → n.hasNoChildren = true)
    (before after : List Event) (e : Event)
    (htraverse : traverse root = before ++ e :: after)
    (hhandler : HandlerEvent e) :
    ∀ id, id ∈ (run sourceCode before State.init).effectFunctions ↔
      ∃ a, (a = e.loc ∨ a ∈ getAncestors e.loc) ∧ isEffectCallback a = true ∧ a.id = id := by
  have hmem : e ∈ traverse root := by rw [htraverse]; simp
  have hl : e.loc.Linked := traverse_linked root e hmem
  obtain ⟨htr, hso⟩ := traverse_trackedAt sourceCode root before after e htraverse
  intro id
  constructor
  · intro hid
    obtain ⟨a, ha, hai, hnear⟩ := hso id hid
    rcases hnear with hnear | ⟨k, p, hp, hq⟩
    · exact ⟨a, hnear,
        (registered_iff_isEffectCallback a (linked_of_onPath _ a hl hnear)).1 ha, hai⟩
    · exfalso
      cases a with
      | root n => exact ha.elim
      | child s f call =>
        obtain ⟨-, -, hcallee, -⟩ := ha
        cases hp
        have hql := linked_of_onPath _ _ hl hq
        have hk : p.node.callee = some k := hql.1
        obtain ⟨callee, hc, hcty, -⟩ := hcallee
        rw [hk] at hc
        cases hc
        have hkleaf := hleaf k (traverse_nodes root e hmem _ hq) hcty
        rcases hq with hq | hq
        · apply not_handlerEvent_of_identifier e _ hhandler
          rw [← hq]
          exact hcty
        · obtain ⟨s2, n2, h2⟩ := exists_child_onPath _ _ hq
          have h3 := (linked_of_onPath _ _ hl h2).1
          rw [show (Loc.child Slot.callee k p).node = k from rfl,
            childAt_of_hasNoChildren k s2 hkleaf] at h3
          exact Option.noConfusion h3
  · rintro ⟨a, hpath, hcb, hai⟩
    rw [← hai]
    exact htr a hpath ((registered_iff_isEffectCallback a (linked_of_onPath _ a hl hpath)).2 hcb)

theorem tracked_iff_inside_witness :
    (∀ n ∈ astReturnNothing.subtree, n.type = "Identifier" → n.hasNoChildren = true) ∧
    traverse astReturnNothing =
      [Event.enter rnProgramLoc, Event.enter rnStmtLoc, Event.enter rnCallLoc,
        Event.enter rnCalleeLoc, Event.exit rnCalleeLoc, Event.enter rnArrowLoc,
        Event.enter rnBlockLoc] ++ Event.enter rnReturnLoc ::
      [Event.exit rnReturnLoc, Event.exit rnBlockLoc, Event.exit rnArrowLoc,
        Event.exit rnCallLoc, Event.exit rnStmtLoc, Event.exit rnProgramLoc] ∧
    HandlerEvent (Event.enter rnReturnLoc) ∧
    (run srcReturnNothing
      [Event.enter rnProgramLoc, Event.enter rnStmtLoc, Event.enter rnCallLoc,
        Event.enter rnCalleeLoc, Event.exit rnCalleeLoc, Event.enter rnArrowLoc,
        Event.enter rnBlockLoc] State.init).effectFunctions = [rnArrowLoc.id] ∧
    ∀ id, id ∈ (run srcReturnNothing
        [Event.enter rnProgramLoc, Event.enter rnStmtLoc, Event.enter rnCallLoc,
          Event.enter rnCalleeLoc, Event.exit rnCalleeLoc, Event.enter rnArrowLoc,
          Event.enter rnBlockLoc] State.init).effectFunctions ↔
      ∃ a, (a = (Event.enter rnReturnLoc).loc ∨
          a ∈ getAncestors (Event.enter rnReturnLoc).loc) ∧
        isEffectCallback a = true ∧ a.id = id :=
  ⟨by decide, rfl, Or.inr rfl, by decide,
    tracked_iff_inside srcReturnNothing astReturnNothing (by decide) _ _
      (Event.enter rnReturnLoc) rfl (Or.inr rfl)⟩

/-! ## Symmetry of the two names and of the two function-literal types -/

theorem typeSim_refl (t : String) : TypeSim t t := Or.inl rfl

theorem typeSim_flip (flip : Bool) (t : String) :
    TypeSim t (if flip then flipLiteralType t else t) := by
  cases flip with
  | false => exact Or.inl rfl
  | true =>
    simp only [if_true, flipLiteralType]
    by_cases h1 : t = "ArrowFunctionExpression"
    · rw [if_pos h1]
      exact Or.inr ⟨Or.inl h1, Or.inr rfl⟩
    · rw [if_neg h1]
      by_cases h2 : t = "FunctionExpression"
      · rw [if_pos h2]
        exact Or.inr ⟨Or.inr h2, Or.inl rfl⟩
      · rw [if_neg h2]
        exact Or.inl rfl

theorem typeSim_eq_iff (t t2 c : String) (h : TypeSim t t2) (hc : ¬ IsFunctionLiteral c) :
    t = c ↔ t2 = c := by
  rcases h with h | ⟨h1, h2⟩
  · rw [h]
  · constructor
    · intro e; exact absurd (e ▸ h1) hc
    · intro e; exact absurd (e ▸ h2) hc

theorem typeSim_literal_iff (t t2 : String) (h : TypeSim t t2) :
    IsFunctionLiteral t ↔ IsFunctionLiteral t2 := by
  rcases h with h | ⟨h1, h2⟩
  · rw [h]
  · exact ⟨fun _ => h2, fun _ => h1⟩

theorem vary_type (swapName flipType : NodeId → Bool) (id : NodeId) :
    ∀ n : Node, (vary swapName flipType id n).type = n.type
  | .mk _ _ _ _ _ _ _ => by simp [vary, Node.type]

theorem vary_range (swapName flipType : NodeId → Bool) (id : NodeId) :
    ∀ n : Node, (vary swapName flipType id n).range = n.range
  | .mk _ _ _ _ _ _ _ => by simp [vary, Node.range]

theorem swapEffectName_effect (name : Option String)
    (h : name = some "useEffect" ∨ name = some "useLayoutEffect") :
    swapEffectName name = some "useEffect" ∨ swapEffectName name = some "useLayoutEffect" := by
  rcases h with h | h <;> subst h <;> decide

theorem vary_name (swapName flipType : NodeId → Bool) (id : NodeId) :
    ∀ n : Node, (vary swapName flipType id n).name = n.name
  | .mk _ _ _ _ _ _ _ => by simp [vary, Node.name]

theorem swapName_type (swap : Bool) : ∀ m : Node, (m.swapName swap).type = m.type
  | .mk _ _ _ _ _ _ _ => rfl

theorem swapName_name (swap : Bool) : ∀ m : Node,
    (m.swapName swap).name = if swap then swapEffectName m.name else m.name
  | .mk _ _ _ _ _ _ _ => rfl

theorem isEffectCall_mk_some (type : String) (name : Option String) (range : Nat × Nat)
    (k : Node) (arguments : List Node) (argument : Option Node) (children : List Node) :
    isEffectCall (.mk type name range (some k) arguments argument children) =
      (k.type == "Identifier" &&
        (k.name == some "useEffect" || k.name == some "useLayoutEffect")) := rfl

theorem isEffectCall_vary (swapName flipType : NodeId → Bool) (id : NodeId) :
    ∀ n : Node, isEffectCall (vary swapName flipType id n) = isEffectCall n
  | .mk type name range callee arguments argument children => by
    cases callee with
    | none => simp [vary, varyOpt, isEffectCall, Node.callee]
    | some k =>
      simp only [vary, varyOpt]
      rw [isEffectCall_mk_some, isEffectCall_mk_some, swapName_type, swapName_name, vary_type,
        vary_name]
      cases hb : (type == "CallExpression" &&
          (k.type == "Identifier" &&
            (k.name == some "useEffect" || k.name == some "useLayoutEffect")) &&
          swapName id) with
      | false => simp
      | true =>
        simp only [Bool.and_eq_true, Bool.or_eq_true, beq_iff_eq] at hb
        obtain ⟨⟨-, hty, hname⟩, -⟩ := hb
        simp only [if_true, hty, beq_self_eq_true, Bool.true_and]
        rcases hname with h | h <;> rw [h] <;> decide

theorem locSim_child (s : Slot) (n n2 : Node) (p p2 : Loc) (hn : NodeSim n n2)
    (hp : LocSim p p2) : LocSim (Loc.child s n p) (Loc.child s n2 p2) := by
  simp only [LocSim]
  exact ⟨trivial, hn, hp⟩

theorem argument_vary (swapName flipType : NodeId → Bool) (id : NodeId) :
    ∀ n : Node, (vary swapName flipType id n).argument.map (fun a => (a.type, a.range)) =
      n.argument.map (fun a => (a.type, a.range))
  | .mk _ _ _ _ _ argument _ => by
    cases argument with
    | none => simp [vary, varyOpt, Node.argument]
    | some a =>
      cases a with
      | mk _ _ _ _ _ _ _ =>
        simp [vary, varyOpt, Node.argument, Node.swapName, Node.type, Node.range]

theorem nodeSim_vary (swapName flipType : NodeId → Bool) (id : NodeId) (n : Node) :
    NodeSim n (vary swapName flipType id n) :=
  ⟨by rw [vary_type]; exact typeSim_refl _, (vary_range _ _ _ _).symm,
    (isEffectCall_vary _ _ _ _).symm, (argument_vary _ _ _ _).symm⟩

theorem nodeSim_swapName (n m : Node) (swap : Bool) (h : NodeSim n m) :
    NodeSim n (m.swapName swap) := by
  cases m with
  | mk _ _ _ _ _ _ _ => exact h

theorem nodeSim_flipType (n m : Node) (flip : Bool) (h : NodeSim n m) :
    NodeSim n (m.flipType flip) := by
  cases m with
  | mk t _ _ _ _ _ _ =>
    obtain ⟨h1, h2, h3, h4⟩ := h
    refine ⟨?_, h2, h3, h4⟩
    have h5 : TypeSim n.type t := h1
    have h6 := typeSim_flip flip t
    show TypeSim n.type (if flip then flipLiteralType t else t)
    rcases h5 with h5 | ⟨h5, h5b⟩
    · rw [h5]; exact h6
    · rcases h6 with h6 | ⟨-, h6⟩
      · rw [← h6]; exact Or.inr ⟨h5, h5b⟩
      · exact Or.inr ⟨h5, h6⟩

theorem walk_swapName (m : Node) (swap : Bool) (here : Loc) :
    walk (m.swapName swap) here = walk m here := by
  cases m with
  | mk _ _ _ _ _ _ _ => simp [Node.swapName, walk]

theorem walk_flipType (m : Node) (flip : Bool) (here : Loc) :
    walk (m.flipType flip) here = walk m here := by
  cases m with
  | mk _ _ _ _ _ _ _ => simp [Node.flipType, walk]

mutual
theorem walk_vary (swapName flipType : NodeId → Bool) : ∀ (n : Node) (id : NodeId)
    (here here2 : Loc), LocSim here here2 →
    List.Forall₂ EventSim (walk n here) (walk (vary swapName flipType id n) here2)
  | .mk _ _ _ callee arguments argument children, id, here, here2, h => by
    simp only [vary, walk]
    refine List.rel_append (List.rel_append (List.rel_append (List.rel_append
      (List.rel_append ?_ ?_) ?_) ?_) ?_) ?_
    · exact List.Forall₂.cons h List.Forall₂.nil
    · exact walkOpt_vary swapName flipType callee _ _ _ here here2 h
    · exact walkList_vary swapName flipType arguments _ 0 _ _ here here2 h
    · exact walkOpt_vary swapName flipType argument _ _ _ here here2 h
    · exact walkList_vary swapName flipType children _ 0 _ _ here here2 h
    · exact List.Forall₂.cons h List.Forall₂.nil
theorem walkOpt_vary (swapName flipType : NodeId → Bool) : ∀ (o : Option Node) (id : NodeId)
    (swap : Bool) (s : Slot) (p p2 : Loc), LocSim p p2 →
    List.Forall₂ EventSim (walkOpt o s p)
      (walkOpt (varyOpt swapName flipType id swap o) s p2)
  | none, _, _, _, _, _, _ => by
    simp only [varyOpt, walkOpt]
    exact List.Forall₂.nil
  | some n, id, swap, s, p, p2, h => by
    simp only [varyOpt, walkOpt]
    rw [walk_swapName]
    exact walk_vary swapName flipType n id _ _
      (locSim_child s _ _ p p2 (nodeSim_swapName _ _ _ (nodeSim_vary swapName flipType id n)) h)
theorem walkList_vary (swapName flipType : NodeId → Bool) : ∀ (l : List Node)
    (parent : NodeId) (i : Nat) (f : Nat → Slot) (flip : Bool) (p p2 : Loc), LocSim p p2 →
    List.Forall₂ EventSim (walkList l i f p)
      (walkList (varyList swapName flipType parent i f flip l) i f p2)
  | [], _, _, _, _, _, _, _ => by
    simp only [varyList, walkList]
    exact List.Forall₂.nil
  | n :: ns, parent, i, f, flip, p, p2, h => by
    simp only [varyList, walkList]
    rw [walk_flipType]
    exact List.rel_append
      (walk_vary swapName flipType n _ _ _
        (locSim_child (f i) _ _ p p2
          (nodeSim_flipType _ _ _ (nodeSim_vary swapName flipType _ n)) h))
      (walkList_vary swapName flipType ns parent (i + 1) f false p p2 h)
end

theorem locSim_node : ∀ (x x2 : Loc), LocSim x x2 → NodeSim x.node x2.node
  | .root _, .root _, h => h
  | .child _ _ _, .child _ _ _, h => h.2.1
  | .root _, .child _ _ _, h => h.elim
  | .child _ _ _, .root _, h => h.elim

theorem locSim_id : ∀ (x x2 : Loc), LocSim x x2 → x.id = x2.id
  | .root _, .root _, _ => rfl
  | .child s n p, .child s2 n2 p2, h => by
    simp only [Loc.id]
    rw [h.1, locSim_id p p2 h.2.2]
  | .root _, .child _ _ _, h => h.elim
  | .child _ _ _, .root _, h => h.elim

theorem not_literal_callExpression : ¬ IsFunctionLiteral "CallExpression" := by
  unfold IsFunctionLiteral
  decide

theorem not_literal_returnStatement : ¬ IsFunctionLiteral "ReturnStatement" := by
  unfold IsFunctionLiteral
  decide

theorem locSim_isEffectCallback : ∀ (x x2 : Loc), LocSim x x2 →
    isEffectCallback x = isEffectCallback x2
  | .root _, .root _, _ => rfl
  | .root _, .child _ _ _, h => h.elim
  | .child _ _ _, .root _, h => h.elim
  | .child s f call, .child s2 f2 call2, h => by
    obtain ⟨hs, hf, hcall⟩ := h
    subst hs
    have hc := locSim_node call call2 hcall
    cases s with
    | arguments i =>
      cases i with
      | zero =>
        rw [Bool.eq_iff_iff]
        simp only [isEffectCallback, Bool.and_eq_true, Bool.or_eq_true, beq_iff_eq]
        have h1 : IsFunctionLiteral f.type ↔ IsFunctionLiteral f2.type :=
          typeSim_literal_iff _ _ hf.1
        have h2 : call.type = "CallExpression" ↔ call2.type = "CallExpression" :=
          typeSim_eq_iff _ _ _ hc.1 not_literal_callExpression
        have h3 : isEffectCall call.node = isEffectCall call2.node := hc.2.2.1
        unfold IsFunctionLiteral at h1
        rw [h1, h2, h3]
      | succ k => rfl
    | callee => rfl
    | argument => rfl
    | child i => rfl

theorem locSim_any_isEffectCallback : ∀ (x x2 : Loc), LocSim x x2 →
    (getAncestors x).any isEffectCallback = (getAncestors x2).any isEffectCallback
  | .root _, .root _, _ => rfl
  | .root _, .child _ _ _, h => h.elim
  | .child _ _ _, .root _, h => h.elim
  | .child s n p, .child s2 n2 p2, h => by
    simp only [getAncestors, List.any_cons]
    rw [locSim_isEffectCallback p p2 h.2.2, locSim_any_isEffectCallback p p2 h.2.2]

theorem statelessReturn_locSim (sourceCode : SourceCode) (x x2 : Loc) (h : LocSim x x2) :
    statelessReturn sourceCode x = statelessReturn sourceCode x2 := by
  obtain ⟨hty, hrange, -, harg⟩ := locSim_node x x2 h
  have hid := locSim_id x x2 h
  have hret : x.type = "ReturnStatement" ↔ x2.type = "ReturnStatement" :=
    typeSim_eq_iff _ _ _ hty not_literal_returnStatement
  have hany := locSim_any_isEffectCallback x x2 h
  have hfix : fixNoValue sourceCode x = fixNoValue sourceCode x2 := by
    simp only [fixNoValue, replaceText, SourceCode.getText, hrange]
  unfold statelessReturn
  rw [hany, hid, hfix]
  by_cases hc : x2.type = "ReturnStatement" ∧ (getAncestors x2).any isEffectCallback = true
  · rw [if_pos hc, if_pos ⟨hret.2 hc.1, hc.2⟩]
    cases h1 : x.node.argument with
    | none =>
      cases h2 : x2.node.argument with
      | none => rfl
      | some a2 => rw [h1, h2] at harg; exact Option.noConfusion harg
    | some a =>
      cases h2 : x2.node.argument with
      | none => rw [h1, h2] at harg; exact Option.noConfusion harg
      | some a2 =>
        rw [h1, h2] at harg
        simp only [Option.map_some', Option.some.injEq, Prod.mk.injEq] at harg
        simp only [fixNonFunction, replaceText, Loc.id, harg.1, harg.2, hid]
  · rw [if_neg hc, if_neg (fun hx => hc ⟨hret.1 hx.1, hx.2⟩)]

theorem statelessEvent_eventSim (sourceCode : SourceCode) : ∀ (e e2 : Event), EventSim e e2 →
    statelessEvent sourceCode e = statelessEvent sourceCode e2
  | .enter l, .enter l2, h => statelessReturn_locSim sourceCode l l2 h
  | .exit _, .exit _, _ => rfl
  | .enter _, .exit _, h => h.elim
  | .exit _, .enter _, h => h.elim

theorem flatMap_statelessEvent (sourceCode : SourceCode) (xs ys : List Event)
    (h : List.Forall₂ EventSim xs ys) :
    xs.flatMap (statelessEvent sourceCode) = ys.flatMap (statelessEvent sourceCode) := by
  induction h with
  | nil => rfl
  | cons hhead _ ih =>
    rw [List.flatMap_cons, List.flatMap_cons, ih, statelessEvent_eventSim sourceCode _ _ hhead]

/-- C12: taking, at any choice of effect calls, the other of the two callee names, and at
any choice of effect calls the other function-literal type for the callback, with the rest
of the tree unchanged, gives the same sequence of reports; so the tree of
`useLayoutEffect(function() { return; })` is reported like that of
`useEffect(() => { return; })`. -/
theorem lint_symmetric (sourceCode : SourceCode) (root : Node)
    (swapName flipType : NodeId → Bool) :
    lint sourceCode (vary swapName flipType [] root) = lint sourceCode root ∧
    vary (fun _ => true) (fun _ => true) [] astReturnNothing = astLayoutFunction ∧
    lint srcReturnNothing astLayoutFunction = lint srcReturnNothing astReturnNothing := by
  have key : ∀ (sourceCode : SourceCode) (root : Node) (swapName flipType : NodeId → Bool),
      lint sourceCode (vary swapName flipType [] root) = lint sourceCode root := by
    intro sourceCode root swapName flipType
    rw [lint_stateless, lint_stateless]
    exact (flatMap_statelessEvent sourceCode _ _
      (walk_vary swapName flipType root [] (Loc.root root)
        (Loc.root (vary swapName flipType [] root))
        (nodeSim_vary swapName flipType [] root))).symm
  refine ⟨key sourceCode root swapName flipType, rfl, ?_⟩
  rw [← key srcReturnNothing astReturnNothing (fun _ => true) (fun _ => true)]
  rfl

end NoNonFunctionReturn
